import Mathlib

/-
  Verification development for the Lucid Control Framework orchestration layer.

  The repository source (src/lucid_control_framework/utils.py) exposes the
  orchestration engine only through the LucidUtils facade; the engine itself
  (graph builder and scheduler of OrchestrationManager) is not part of the
  shipped slice.  Following the specification, the engine is modelled here
  from the spec text (definitions marked "Modelled from the spec:"), while
  the facade methods are embedded directly from the source.
-/

namespace Lucid

/-- Modelled from the spec: one work-unit definition (one configuration row),
    section 3 of the spec.  Dependencies and parameters are the parsed, typed
    forms of the serialized row fields. -/
structure WorkUnitDefinition where
  node_name : String
  unit_reference : String
  dependencies : List String
  parameters : List (String × String)
  timeout_seconds : Nat
  retry_attempts : Nat
  retry_interval_seconds : Nat
  active : Bool
  process_group : Nat
deriving DecidableEq

/-- Modelled from the spec: one node of the built graph, holding the fields of
    the graph representation of section 6 of the spec. -/
structure DagNode where
  name : String
  unit_reference : String
  dependencies : List String
  parameters : List (String × String)
  timeout_seconds : Nat
  retry_attempts : Nat
  retry_interval_seconds : Nat
deriving DecidableEq

/-- Modelled from the spec: the error taxonomy of graph construction,
    section 7 of the spec. -/
inductive BuildError where
  | configError (node_name : String)
  | unknownDependencyError (node_name : String) (dependency : String)
  | dependencyCycleError (cycle : List String)
deriving DecidableEq

def toDagNode (d : WorkUnitDefinition) : DagNode :=
  ⟨d.node_name, d.unit_reference, d.dependencies, d.parameters,
   d.timeout_seconds, d.retry_attempts, d.retry_interval_seconds⟩

/-- Modelled from the spec: the graph builder first filters the definitions to
    the active ones of the requested process group. -/
def activeDefs (defs : List WorkUnitDefinition) (pg : Nat) : List WorkUnitDefinition :=
  defs.filter (fun d => d.active && d.process_group == pg)

/-- Modelled from the spec: the set of active nodes of a process group, in
    graph-node form. -/
def activeDag (defs : List WorkUnitDefinition) (pg : Nat) : List DagNode :=
  (activeDefs defs pg).map toDagNode

def dagNames (dag : List DagNode) : List String :=
  dag.map DagNode.name

/-- Direct prerequisite relation of a graph: depRel dag x y holds when the
    node named x lists y among its dependencies. -/
def depRel (dag : List DagNode) (x y : String) : Prop :=
  ∃ nd, nd ∈ dag ∧ nd.name = x ∧ y ∈ nd.dependencies

/-- A dependency cycle exists among the nodes of the graph. -/
def HasCycle (dag : List DagNode) : Prop :=
  ∃ x, Relation.TransGen (depRel dag) x x

/-- A nonempty node list forming a cycle: consecutive nodes are related by
    depRel and the last node depends back on the first. -/
def IsCycleList (dag : List DagNode) (c : List String) : Prop :=
  c ≠ [] ∧ List.Chain' (depRel dag) c ∧
    ∀ a ∈ c.getLast?, ∀ b ∈ c.head?, depRel dag a b

/-- First duplicated element of a list of names, if any. -/
def firstDup : List String → Option String
  | [] => none
  | x :: xs => if xs.contains x then some x else firstDup xs

/-- Modelled from the spec: resolution of dependency strings; returns the
    first pair of a node name and a dependency that does not resolve to a
    node of the graph. -/
def findUnknown (dag : List DagNode) : Option (String × String) :=
  dag.findSome? (fun nd =>
    (nd.dependencies.find? (fun dep => !((dagNames dag).contains dep))).map
      (fun dep => (nd.name, dep)))

/-- Modelled from the spec: one round of topological peeling; every node all
    of whose dependencies are already peeled becomes peeled. -/
def peelStep (dag : List DagNode) (peeled : List String) : List String :=
  peeled ++ (dag.filter (fun nd =>
    !(peeled.contains nd.name) && nd.dependencies.all (fun d => peeled.contains d))).map DagNode.name

def peelIter (dag : List DagNode) : Nat → List String
  | 0 => []
  | k + 1 => peelStep dag (peelIter dag k)

/-- Names never peeled after as many rounds as there are nodes; nonempty
    exactly when the dependency relation has a cycle. -/
def stuckSet (dag : List DagNode) : List String :=
  (dagNames dag).filter (fun n => !((peelIter dag dag.length).contains n))

/-- Walk along chosen dependencies until a node repeats, then cut out the
    cycle between the two visits. -/
def findRepeat (nextf : String → String) : Nat → String → List String → Option (List String)
  | 0, _, _ => none
  | fuel + 1, x, seen =>
    if seen.contains x then
      some (x :: (seen.takeWhile (fun y => y != x)).reverse)
    else
      findRepeat nextf fuel (nextf x) (x :: seen)

theorem findRepeat_succ (nextf : String → String) (fuel : Nat) (x : String)
    (seen : List String) :
    findRepeat nextf (fuel + 1) x seen =
      if seen.contains x = true then
        some (x :: (seen.takeWhile (fun y => y != x)).reverse)
      else findRepeat nextf fuel (nextf x) (x :: seen) := rfl

def depsOfName (dag : List DagNode) (x : String) : List String :=
  match dag.find? (fun nd => nd.name == x) with
  | some nd => nd.dependencies
  | none => []

/-- Chooses, for each node, its first dependency inside the region R. -/
def nextIn (dag : List DagNode) (R : List String) : String → String :=
  fun x => ((depsOfName dag x).find? (fun d => R.contains d)).getD x

/-- Modelled from the spec: cycle detection over the prerequisite relation;
    returns the node names of a full cycle when one exists. -/
def findCycle (dag : List DagNode) : Option (List String) :=
  match stuckSet dag with
  | [] => none
  | x :: _ =>
    some ((findRepeat (nextIn dag (stuckSet dag)) (dag.length + 1) x []).getD [x])

/-- Modelled from the spec: graph construction (the build contract of
    section 4.1): filter to active nodes of the process group, reject
    duplicate names, reject unresolved dependencies, reject cycles, and
    otherwise return the graph. -/
def build (defs : List WorkUnitDefinition) (pg : Nat) : Except BuildError (List DagNode) :=
  match firstDup (dagNames (activeDag defs pg)) with
  | some n => .error (.configError n)
  | none =>
    match findUnknown (activeDag defs pg) with
    | some p => .error (.unknownDependencyError p.1 p.2)
    | none =>
      match findCycle (activeDag defs pg) with
      | some c => .error (.dependencyCycleError c)
      | none => .ok (activeDag defs pg)

/-- Every dependency of every node of the graph names a node of the graph. -/
def Closed (dag : List DagNode) : Prop :=
  ∀ nd ∈ dag, ∀ d ∈ nd.dependencies, d ∈ dagNames dag

theorem contains_iff {l : List String} {a : String} : l.contains a = true ↔ a ∈ l :=
  List.elem_iff

theorem not_mem_of_contains_false {l : List String} {a : String}
    (h : l.contains a = false) : a ∉ l := by
  intro hm
  rw [contains_iff.mpr hm] at h
  cases h

theorem contains_false_of_not_mem {l : List String} {a : String}
    (h : a ∉ l) : l.contains a = false := by
  rw [← Bool.not_eq_true]
  intro hc
  exact h (contains_iff.mp hc)

theorem firstDup_eq_none : ∀ {l : List String}, firstDup l = none ↔ l.Nodup := by
  intro l
  induction l with
  | nil => simp [firstDup]
  | cons x xs ih =>
    rw [List.nodup_cons]
    by_cases h : xs.contains x
    · simp [firstDup, h, contains_iff.mp h]
    · have hx : x ∉ xs := fun hm => h (contains_iff.mpr hm)
      simp [firstDup, h, hx, ih]

theorem findUnknown_eq_none {dag : List DagNode} :
    findUnknown dag = none ↔ Closed dag := by
  unfold findUnknown Closed
  rw [List.findSome?_eq_none_iff]
  constructor
  · intro h nd hnd d hd
    have h2 := h nd hnd
    rw [Option.map_eq_none', List.find?_eq_none] at h2
    have := h2 d hd
    simpa [contains_iff] using this
  · intro h nd hnd
    rw [Option.map_eq_none', List.find?_eq_none]
    intro d hd
    simpa [contains_iff] using h nd hnd d hd

theorem findUnknown_sound {dag : List DagNode} {n d : String}
    (h : findUnknown dag = some (n, d)) :
    ∃ nd ∈ dag, nd.name = n ∧ d ∈ nd.dependencies ∧ d ∉ dagNames dag := by
  obtain ⟨nd, hnd, hsome⟩ := List.exists_of_findSome?_eq_some h
  rw [Option.map_eq_some'] at hsome
  obtain ⟨dep, hfind, heq⟩ := hsome
  have hdep : dep ∈ nd.dependencies := List.mem_of_find?_eq_some hfind
  have hp := List.find?_some hfind
  have hnotin : dep ∉ dagNames dag := by
    intro hm
    rw [Bool.not_eq_true', ← Bool.not_eq_true] at hp
    exact hp (by simpa [contains_iff] using hm)
  obtain ⟨h1, h2⟩ := Prod.mk.injEq .. ▸ heq
  exact ⟨nd, hnd, h1, h2 ▸ hdep, h2 ▸ hnotin⟩

theorem peelIter_subset {dag : List DagNode} : ∀ k, peelIter dag k ⊆ dagNames dag := by
  intro k
  induction k with
  | zero => simp [peelIter]
  | succ k ih =>
    intro x hx
    rw [peelIter, peelStep, List.mem_append] at hx
    rcases hx with hx | hx
    · exact ih hx
    · obtain ⟨nd, hnd, rfl⟩ := List.mem_map.mp hx
      exact List.mem_map.mpr ⟨nd, List.mem_of_mem_filter hnd, rfl⟩

theorem peelIter_nodup {dag : List DagNode} (hn : (dagNames dag).Nodup) :
    ∀ k, (peelIter dag k).Nodup := by
  intro k
  induction k with
  | zero => simp [peelIter]
  | succ k ih =>
    rw [peelIter, peelStep]
    apply List.Nodup.append ih
    · exact ((List.filter_sublist dag).map DagNode.name).nodup hn
    · intro x hx hx2
      obtain ⟨nd, hnd, rfl⟩ := List.mem_map.mp hx2
      have := (List.mem_filter.mp hnd).2
      rw [Bool.and_eq_true] at this
      have h1 := this.1
      rw [Bool.not_eq_true'] at h1
      exact not_mem_of_contains_false h1 hx

theorem peelIter_mono {dag : List DagNode} (k : Nat) :
    peelIter dag k ⊆ peelIter dag (k + 1) := by
  rw [peelIter, peelStep]
  exact List.subset_append_left _ _

theorem mem_peelIter_succ {dag : List DagNode} {x : String} {k : Nat}
    (hx : x ∈ peelIter dag (k + 1)) :
    x ∈ peelIter dag k ∨
      ∃ nd ∈ dag, nd.name = x ∧ x ∉ peelIter dag k ∧
        ∀ d ∈ nd.dependencies, d ∈ peelIter dag k := by
  rw [peelIter, peelStep, List.mem_append] at hx
  rcases hx with hx | hx
  · exact Or.inl hx
  · right
    obtain ⟨nd, hnd, rfl⟩ := List.mem_map.mp hx
    obtain ⟨hmem, hcond⟩ := List.mem_filter.mp hnd
    rw [Bool.and_eq_true] at hcond
    refine ⟨nd, hmem, rfl, ?_, ?_⟩
    · intro hm
      have h1 := hcond.1
      rw [Bool.not_eq_true'] at h1
      exact not_mem_of_contains_false h1 hm
    · intro d hd
      have := List.all_eq_true.mp hcond.2 d hd
      exact contains_iff.mp this

theorem peelIter_fix_persist {dag : List DagNode} {k : Nat}
    (h : peelIter dag (k + 1) = peelIter dag k) :
    ∀ m, k ≤ m → peelIter dag m = peelIter dag k := by
  intro m hm
  induction m with
  | zero => cases Nat.le_zero.mp hm; rfl
  | succ m ih =>
    rcases Nat.lt_or_ge k (m + 1) with hlt | hge
    · have hkm : k ≤ m := Nat.lt_succ_iff.mp hlt
      have := ih hkm
      calc peelIter dag (m + 1) = peelStep dag (peelIter dag m) := rfl
        _ = peelStep dag (peelIter dag k) := by rw [this]
        _ = peelIter dag (k + 1) := rfl
        _ = peelIter dag k := h
    · have hk : k = m + 1 := Nat.le_antisymm hm hge
      rw [hk]

theorem peelIter_grow {dag : List DagNode} {k : Nat}
    (h : peelIter dag (k + 1) ≠ peelIter dag k) :
    (peelIter dag k).length + 1 ≤ (peelIter dag (k + 1)).length := by
  have : peelIter dag (k + 1) = peelIter dag k ++
      (dag.filter (fun nd => !((peelIter dag k).contains nd.name) &&
        nd.dependencies.all (fun d => (peelIter dag k).contains d))).map DagNode.name := rfl
  rw [this, List.length_append]
  cases hb : (dag.filter (fun nd => !((peelIter dag k).contains nd.name) &&
      nd.dependencies.all (fun d => (peelIter dag k).contains d))).map DagNode.name with
  | nil => exact absurd (by rw [this, hb, List.append_nil]) h
  | cons b bs => simp [Nat.succ_le_succ_iff]

theorem peel_fixpoint {dag : List DagNode} (hn : (dagNames dag).Nodup) :
    peelIter dag (dag.length + 1) = peelIter dag dag.length := by
  by_contra hfix
  have hne : ∀ k, k ≤ dag.length → peelIter dag (k + 1) ≠ peelIter dag k := by
    intro k hk heq
    exact hfix (by
      rw [peelIter_fix_persist heq _ (Nat.le_trans hk (Nat.le_succ _)),
        peelIter_fix_persist heq _ hk])
  have hlen : ∀ k, k ≤ dag.length + 1 → k ≤ (peelIter dag k).length := by
    intro k
    induction k with
    | zero => intro _; exact Nat.zero_le _
    | succ k ih =>
      intro hk
      have hk' : k ≤ dag.length := Nat.lt_succ_iff.mp hk
      have h1 := ih (Nat.le_trans hk' (Nat.le_succ _))
      have h2 := peelIter_grow (hne k hk')
      omega
  have hbound : (peelIter dag (dag.length + 1)).length ≤ dag.length := by
    have hsp := List.subperm_of_subset (peelIter_nodup hn _) (@peelIter_subset dag (dag.length + 1))
    have := hsp.length_le
    simpa [dagNames] using this
  have := hlen (dag.length + 1) (Nat.le_refl _)
  omega

theorem stuckSet_step {dag : List DagNode} (hn : (dagNames dag).Nodup) (hc : Closed dag) :
    ∀ x ∈ stuckSet dag, ∃ nd ∈ dag, nd.name = x ∧
      ∃ d ∈ nd.dependencies, d ∈ stuckSet dag := by
  intro x hx
  obtain ⟨hxn, hxp⟩ := List.mem_filter.mp hx
  have hxnot : x ∉ peelIter dag dag.length := by
    rw [Bool.not_eq_true'] at hxp
    exact not_mem_of_contains_false hxp
  obtain ⟨nd, hnd, rfl⟩ := List.mem_map.mp hxn
  refine ⟨nd, hnd, rfl, ?_⟩
  by_contra hall
  push_neg at hall
  have hdall : ∀ d ∈ nd.dependencies, d ∈ peelIter dag dag.length := by
    intro d hd
    by_contra hdn
    have hdm : d ∈ dagNames dag := hc nd hnd d hd
    exact hall d hd (List.mem_filter.mpr ⟨hdm, by
      rw [Bool.not_eq_true']
      exact contains_false_of_not_mem hdn⟩)
  have hbatch : nd.name ∈ peelIter dag (dag.length + 1) := by
    rw [peelIter, peelStep, List.mem_append]
    right
    refine List.mem_map.mpr ⟨nd, List.mem_filter.mpr ⟨hnd, ?_⟩, rfl⟩
    rw [Bool.and_eq_true]
    constructor
    · rw [Bool.not_eq_true']
      exact contains_false_of_not_mem hxnot
    · exact List.all_eq_true.mpr (fun d hd => contains_iff.mpr (hdall d hd))
  rw [peel_fixpoint hn] at hbatch
  exact hxnot hbatch

theorem dropWhile_head_false {α : Type} {p : α → Bool} :
    ∀ {l : List α} {b : α} {t : List α}, l.dropWhile p = b :: t → p b = false := by
  intro l
  induction l with
  | nil => intro b t h; cases h
  | cons a l ih =>
    intro b t h
    rw [List.dropWhile_cons] at h
    by_cases hp : p a = true
    · rw [if_pos hp] at h
      exact ih h
    · rw [if_neg hp] at h
      obtain ⟨rfl, -⟩ := List.cons.injEq .. ▸ h
      exact Bool.not_eq_true _ ▸ hp

theorem takeWhile_split {l : List String} {x : String} (hx : x ∈ l) :
    l = l.takeWhile (fun y => y != x) ++ x :: (l.dropWhile (fun y => y != x)).tail ∧
      x ∉ l.takeWhile (fun y => y != x) := by
  have hnotin : x ∉ l.takeWhile (fun y => y != x) := by
    intro hm
    have := List.mem_takeWhile_imp hm
    simp at this
  refine ⟨?_, hnotin⟩
  cases hd : l.dropWhile (fun y => y != x) with
  | nil =>
    exfalso
    have happ := List.takeWhile_append_dropWhile (fun y => y != x) l
    rw [hd, List.append_nil] at happ
    rw [← happ] at hx
    exact hnotin hx
  | cons b t =>
    have hb := dropWhile_head_false hd
    have hbx : b = x := by simpa using hb
    have happ := List.takeWhile_append_dropWhile (fun y => y != x) l
    rw [hd, hbx] at happ
    rw [List.tail_cons]
    exact happ.symm

theorem chain'_nextf_dep {dag : List DagNode} {nextf : String → String} :
    ∀ (l : List String), (∀ y ∈ l, depRel dag y (nextf y)) →
      List.Chain' (fun a b => b = nextf a) l → List.Chain' (depRel dag) l := by
  intro l
  induction l with
  | nil => intro _ _; exact List.chain'_nil
  | cons a l ih =>
    intro hmem hch
    cases l with
    | nil => exact List.chain'_singleton a
    | cons b t =>
      rw [List.chain'_cons] at hch ⊢
      refine ⟨?_, ih (fun y hy => hmem y (List.mem_cons_of_mem _ hy)) hch.2⟩
      have hda := hmem a (List.mem_cons_self a _)
      rw [← hch.1] at hda
      exact hda

theorem chain'_reflTransGen {r : String → String → Prop} :
    ∀ (l : List String), List.Chain' r l →
      ∀ a ∈ l.head?, ∀ b ∈ l.getLast?, Relation.ReflTransGen r a b := by
  intro l
  induction l with
  | nil => intro _ a ha; cases ha
  | cons x t ih =>
    intro hch a ha b hb
    rw [List.head?_cons, Option.mem_some_iff] at ha
    subst ha
    cases t with
    | nil =>
      simp only [List.getLast?_singleton, Option.mem_some_iff] at hb
      subst hb
      exact Relation.ReflTransGen.refl
    | cons y t2 =>
      rw [List.chain'_cons] at hch
      rw [List.getLast?_cons_cons] at hb
      have h2 := ih hch.2 y (by rw [List.head?_cons]; rfl) b hb
      exact Relation.ReflTransGen.head hch.1 h2

theorem cycleList_hasCycle {dag : List DagNode} {c : List String}
    (h : IsCycleList dag c) : HasCycle dag := by
  obtain ⟨hne, hch, hwrap⟩ := h
  cases c with
  | nil => exact absurd rfl hne
  | cons x xs =>
    have hlast := List.getLast?_eq_getLast (x :: xs) (by simp)
    have hrtg := chain'_reflTransGen _ hch x (by rw [List.head?_cons]; rfl)
      ((x :: xs).getLast (by simp)) (by rw [hlast]; rfl)
    have hdep := hwrap ((x :: xs).getLast (by simp)) (by rw [hlast]; rfl) x
      (by rw [List.head?_cons]; rfl)
    exact ⟨x, Relation.TransGen.tail' hrtg hdep⟩

theorem cut_isCycle_core {dag : List DagNode} {nextf : String → String} {x : String}
    {pre t : List String}
    (hdep : ∀ y ∈ x :: (pre ++ x :: t), depRel dag y (nextf y))
    (hchain : List.Chain' (fun a b => a = nextf b) (x :: (pre ++ x :: t))) :
    IsCycleList dag (x :: pre.reverse) := by
  have hch2 : List.Chain' (fun a b => a = nextf b) ((x :: pre) ++ (x :: t)) := by
    rw [List.cons_append]
    exact hchain
  rw [List.chain'_append] at hch2
  obtain ⟨h1, -, h3⟩ := hch2
  have hbound : ∀ a ∈ (x :: pre).getLast?, a = nextf x := by
    intro a ha
    exact h3 a ha x (by rw [List.head?_cons]; rfl)
  cases pre with
  | nil =>
    have hLx : x = nextf x := hbound x (by simp)
    refine ⟨by simp, by simp, ?_⟩
    intro a ha b hb
    simp only [List.reverse_nil, List.getLast?_singleton, List.head?_cons,
      Option.mem_some_iff] at ha hb
    subst ha; subst hb
    have hd := hdep x (List.mem_cons_self _ _)
    rw [← hLx] at hd
    exact hd
  | cons p0 ps =>
    have hxp0 : x = nextf p0 := (List.chain'_cons.mp h1).1
    have hch_pre : List.Chain' (fun a b => a = nextf b) (p0 :: ps) :=
      (List.chain'_cons.mp h1).2
    have hrevch : List.Chain' (fun a b => b = nextf a) ((p0 :: ps).reverse) := by
      rw [List.chain'_reverse]
      exact hch_pre
    have hchfull : List.Chain' (fun a b => b = nextf a) (x :: (p0 :: ps).reverse) := by
      rw [List.chain'_cons']
      refine ⟨?_, hrevch⟩
      intro y hy
      rw [List.head?_reverse] at hy
      exact hbound y (by rw [List.getLast?_cons_cons]; exact hy)
    have hmem : ∀ y ∈ x :: (p0 :: ps).reverse, y ∈ x :: ((p0 :: ps) ++ x :: t) := by
      intro y hy
      rcases List.mem_cons.mp hy with rfl | hy'
      · exact List.mem_cons_self _ _
      · exact List.mem_cons_of_mem _
          (List.mem_append_left _ (List.mem_reverse.mp hy'))
    have hgl : (x :: (p0 :: ps).reverse).getLast? = some p0 := by
      have h4 : x :: (p0 :: ps).reverse = [x] ++ (p0 :: ps).reverse := rfl
      rw [h4, List.getLast?_append, List.getLast?_reverse, List.head?_cons]
      rfl
    refine ⟨by simp, ?_, ?_⟩
    · exact chain'_nextf_dep _ (fun y hy => hdep y (hmem y hy)) hchfull
    · intro a ha b hb
      rw [List.head?_cons, Option.mem_some_iff] at hb
      subst hb
      rw [hgl, Option.mem_some_iff] at ha
      subst ha
      have hd := hdep p0 (List.mem_cons_of_mem _
        (List.mem_append_left _ (List.mem_cons_self _ _)))
      rw [← hxp0] at hd
      exact hd

theorem cut_isCycle {dag : List DagNode} {nextf : String → String} {x : String}
    {seen : List String}
    (hdep : ∀ y ∈ x :: seen, depRel dag y (nextf y))
    (hchain : List.Chain' (fun a b => a = nextf b) (x :: seen))
    (hx : x ∈ seen) :
    IsCycleList dag (x :: (seen.takeWhile (fun y => y != x)).reverse) := by
  obtain ⟨hsplit, -⟩ := takeWhile_split hx
  have hdep2 : ∀ y ∈ x :: (seen.takeWhile (fun y => y != x) ++
      x :: (seen.dropWhile (fun y => y != x)).tail), depRel dag y (nextf y) := by
    intro y hy
    apply hdep
    rw [hsplit]
    exact hy
  have hch2 : List.Chain' (fun a b => a = nextf b) (x :: (seen.takeWhile (fun y => y != x) ++
      x :: (seen.dropWhile (fun y => y != x)).tail)) := by
    rw [← hsplit]
    exact hchain
  exact cut_isCycle_core hdep2 hch2

theorem findRepeat_spec {dag : List DagNode} {R : List String} {nextf : String → String}
    (hR : ∀ y ∈ R, depRel dag y (nextf y) ∧ nextf y ∈ R) :
    ∀ (fuel : Nat) (x : String) (seen : List String), x ∈ R → (∀ y ∈ seen, y ∈ R) →
      seen.Nodup → List.Chain' (fun a b => a = nextf b) (x :: seen) →
      R.length + 1 ≤ fuel + seen.length →
      ∃ c, findRepeat nextf fuel x seen = some c ∧ IsCycleList dag c := by
  intro fuel
  induction fuel with
  | zero =>
    intro x seen hx hseen hnd hch hlen
    exfalso
    have hsp := List.subperm_of_subset hnd (fun y hy => hseen y hy)
    have := hsp.length_le
    omega
  | succ fuel ih =>
    intro x seen hx hseen hnd hch hlen
    by_cases hmem : seen.contains x = true
    · have hxseen : x ∈ seen := contains_iff.mp hmem
      refine ⟨_, ?_, cut_isCycle (fun y hy => ?_) hch hxseen⟩
      · rw [findRepeat_succ, if_pos hmem]
      · rcases List.mem_cons.mp hy with rfl | hy'
        · exact (hR y hx).1
        · exact (hR y (hseen y hy')).1
    · have hxseen : x ∉ seen := fun hm => hmem (contains_iff.mpr hm)
      rw [findRepeat_succ, if_neg hmem]
      exact ih (nextf x) (x :: seen) (hR x hx).2
        (fun y hy => by
          rcases List.mem_cons.mp hy with rfl | hy'
          exacts [hx, hseen y hy'])
        (List.nodup_cons.mpr ⟨hxseen, hnd⟩)
        (List.chain'_cons.mpr ⟨rfl, hch⟩)
        (by simp only [List.length_cons]; omega)

theorem find?_name_eq : ∀ {dag : List DagNode}, (dagNames dag).Nodup →
    ∀ {nd : DagNode}, nd ∈ dag → dag.find? (fun m => m.name == nd.name) = some nd := by
  intro dag
  induction dag with
  | nil => intro _ nd h; cases h
  | cons m rest ih =>
    intro hn nd h
    have hn2 : (m.name :: dagNames rest).Nodup := hn
    by_cases hb : (m.name == nd.name) = true
    · rcases List.mem_cons.mp h with rfl | hrest
      · exact List.find?_cons_of_pos _ hb
      · exfalso
        have hnode := (List.nodup_cons.mp hn2).1
        rw [beq_iff_eq] at hb
        exact hnode (hb ▸ List.mem_map.mpr ⟨nd, hrest, rfl⟩)
    · rcases List.mem_cons.mp h with rfl | hrest
      · exact absurd (by simp) hb
      · rw [@List.find?_cons_of_neg DagNode (fun k => k.name == nd.name) m rest hb]
        exact ih (List.nodup_cons.mp hn2).2 hrest

theorem depsOfName_eq {dag : List DagNode} (hn : (dagNames dag).Nodup)
    {nd : DagNode} (h : nd ∈ dag) : depsOfName dag nd.name = nd.dependencies := by
  unfold depsOfName
  rw [find?_name_eq hn h]

theorem stuck_nextIn {dag : List DagNode} (hn : (dagNames dag).Nodup)
    (hc : Closed dag) :
    ∀ y ∈ stuckSet dag,
      depRel dag y (nextIn dag (stuckSet dag) y) ∧
        nextIn dag (stuckSet dag) y ∈ stuckSet dag := by
  intro y hy
  obtain ⟨nd, hnd, hname, d, hd, hds⟩ := stuckSet_step hn hc y hy
  have hdeps : depsOfName dag y = nd.dependencies := hname ▸ depsOfName_eq hn hnd
  have hsome : ((depsOfName dag y).find? (fun d => (stuckSet dag).contains d)).isSome = true := by
    rw [List.find?_isSome]
    exact ⟨d, hdeps ▸ hd, contains_iff.mpr hds⟩
  obtain ⟨d0, hd0⟩ := Option.isSome_iff_exists.mp hsome
  have hd0R : d0 ∈ stuckSet dag := contains_iff.mp (List.find?_some hd0)
  have hd0dep : d0 ∈ nd.dependencies := hdeps ▸ List.mem_of_find?_eq_some hd0
  have hnext : nextIn dag (stuckSet dag) y = d0 := by
    unfold nextIn
    rw [hd0]
    rfl
  rw [hnext]
  exact ⟨⟨nd, hnd, hname, hd0dep⟩, hd0R⟩

theorem findCycle_spec {dag : List DagNode} (hn : (dagNames dag).Nodup)
    (hc : Closed dag) (hne : stuckSet dag ≠ []) :
    ∃ c, findCycle dag = some c ∧ IsCycleList dag c := by
  have hlenR : (stuckSet dag).length ≤ dag.length := by
    have h1 : (stuckSet dag).length ≤ (dagNames dag).length :=
      (List.filter_sublist _).length_le
    simpa [dagNames] using h1
  have hRspec := stuck_nextIn hn hc
  unfold findCycle
  cases hs : stuckSet dag with
  | nil => exact absurd hs hne
  | cons x rest =>
    rw [hs] at hRspec hlenR
    obtain ⟨c, hfr, hcyc⟩ := findRepeat_spec hRspec (dag.length + 1) x []
      (List.mem_cons_self x rest) (fun y hy => absurd hy (List.not_mem_nil y))
      List.nodup_nil (List.chain'_singleton x)
      (by simp only [List.length_nil]; omega)
    refine ⟨c, ?_, hcyc⟩
    show some ((findRepeat (nextIn dag (x :: rest)) (dag.length + 1) x []).getD [x]) = some c
    rw [hfr]
    rfl

theorem peel_no_cycle {dag : List DagNode} (hn : (dagNames dag).Nodup) :
    ∀ k, ∀ x ∈ peelIter dag k, ¬ Relation.TransGen (depRel dag) x x := by
  intro k
  induction k with
  | zero => intro x hx; cases hx
  | succ k ih =>
    intro x hx htg
    rcases mem_peelIter_succ hx with hx' | ⟨nd, hnd, hname, hxk, hdeps⟩
    · exact ih x hx' htg
    · subst hname
      rw [Relation.TransGen.head'_iff] at htg
      obtain ⟨y, hxy, hyx⟩ := htg
      obtain ⟨nd', hnd', hname', hy⟩ := hxy
      have hnd'eq : nd' = nd := List.inj_on_of_nodup_map (by simpa [dagNames] using hn)
        hnd' hnd hname'
      subst hnd'eq
      have hyk : y ∈ peelIter dag k := hdeps y hy
      exact ih y hyk (Relation.TransGen.tail' hyx ⟨nd', hnd', hname', hy⟩)

theorem mem_names_of_depRel {dag : List DagNode} {x y : String}
    (h : depRel dag x y) : x ∈ dagNames dag := by
  obtain ⟨nd, hnd, rfl, -⟩ := h
  exact List.mem_map.mpr ⟨nd, hnd, rfl⟩

theorem not_hasCycle_of_stuck_nil {dag : List DagNode} (hn : (dagNames dag).Nodup)
    (hs : stuckSet dag = []) : ¬ HasCycle dag := by
  rintro ⟨x, htg⟩
  have hx : x ∈ dagNames dag := by
    rw [Relation.TransGen.head'_iff] at htg
    obtain ⟨y, hxy, -⟩ := htg
    exact mem_names_of_depRel hxy
  have hpeel : x ∈ peelIter dag dag.length := by
    by_contra hnp
    have hmem : x ∈ stuckSet dag := List.mem_filter.mpr ⟨hx, by
      rw [Bool.not_eq_true']
      exact contains_false_of_not_mem hnp⟩
    rw [hs] at hmem
    cases hmem
  exact peel_no_cycle hn _ x hpeel htg

theorem build_ok_elim {defs : List WorkUnitDefinition} {pg : Nat} {dag : List DagNode}
    (h : build defs pg = .ok dag) :
    dag = activeDag defs pg ∧ (dagNames dag).Nodup ∧ Closed dag ∧ ¬ HasCycle dag := by
  unfold build at h
  cases h1 : firstDup (dagNames (activeDag defs pg)) with
  | some n => rw [h1] at h; cases h
  | none =>
    rw [h1] at h
    cases h2 : findUnknown (activeDag defs pg) with
    | some p => rw [h2] at h; cases h
    | none =>
      rw [h2] at h
      cases h3 : findCycle (activeDag defs pg) with
      | some c => rw [h3] at h; cases h
      | none =>
        rw [h3] at h
        have hdag : dag = activeDag defs pg := (Except.ok.inj h).symm
        subst hdag
        have hnn := firstDup_eq_none.mp h1
        have hcl := findUnknown_eq_none.mp h2
        have hstuck : stuckSet (activeDag defs pg) = [] := by
          by_contra hne
          unfold findCycle at h3
          cases hs : stuckSet (activeDag defs pg) with
          | nil => exact hne hs
          | cons a r => rw [hs] at h3; cases h3
        exact ⟨rfl, hnn, hcl, not_hasCycle_of_stuck_nil hnn hstuck⟩

theorem build_ok_of {defs : List WorkUnitDefinition} {pg : Nat}
    (hn : (dagNames (activeDag defs pg)).Nodup)
    (hc : Closed (activeDag defs pg))
    (hacyc : ¬ HasCycle (activeDag defs pg)) :
    build defs pg = .ok (activeDag defs pg) := by
  have hstuck : stuckSet (activeDag defs pg) = [] := by
    cases hs : stuckSet (activeDag defs pg) with
    | nil => rfl
    | cons x r =>
      exfalso
      obtain ⟨c, -, hcyc⟩ := findCycle_spec hn hc (by rw [hs]; simp)
      exact hacyc (cycleList_hasCycle hcyc)
  have hfc : findCycle (activeDag defs pg) = none := by
    unfold findCycle
    rw [hstuck]
  unfold build
  rw [firstDup_eq_none.mpr hn, findUnknown_eq_none.mpr hc, hfc]

theorem build_cycle_elim {defs : List WorkUnitDefinition} {pg : Nat}
    (hn : (dagNames (activeDag defs pg)).Nodup)
    (hc : Closed (activeDag defs pg))
    (hcyc : HasCycle (activeDag defs pg)) :
    ∃ c, build defs pg = .error (.dependencyCycleError c) ∧
      IsCycleList (activeDag defs pg) c := by
  have hne : stuckSet (activeDag defs pg) ≠ [] := by
    intro hs
    exact not_hasCycle_of_stuck_nil hn hs hcyc
  obtain ⟨c, hfc, hcl⟩ := findCycle_spec hn hc hne
  refine ⟨c, ?_, hcl⟩
  unfold build
  rw [firstDup_eq_none.mpr hn, findUnknown_eq_none.mpr hc, hfc]

theorem build_unknown_elim {defs : List WorkUnitDefinition} {pg : Nat}
    (hn : (dagNames (activeDag defs pg)).Nodup)
    (hoff : ¬ Closed (activeDag defs pg)) :
    ∃ n d, build defs pg = .error (.unknownDependencyError n d) ∧
      ∃ nd ∈ activeDag defs pg, nd.name = n ∧ d ∈ nd.dependencies ∧
        d ∉ dagNames (activeDag defs pg) := by
  cases h2 : findUnknown (activeDag defs pg) with
  | none => exact absurd (findUnknown_eq_none.mp h2) hoff
  | some p =>
    obtain ⟨nd, hnd, hname, hd, hnm⟩ := findUnknown_sound (n := p.1) (d := p.2)
      (by rw [h2])
    refine ⟨p.1, p.2, ?_, nd, hnd, hname, hd, hnm⟩
    unfold build
    rw [firstDup_eq_none.mpr hn, h2]

/-- Modelled from the spec: per-attempt outcome reported by the task runner
    (section 4.4 of the spec). -/
inductive RunnerOutcome where
  | success
  | failure (msg : String)
  | timeout (msg : String)
deriving DecidableEq

/-- Modelled from the spec: statuses appearing in execution-log rows
    (section 6 of the spec). -/
inductive RStatus where
  | success
  | failed
  | timeout
  | skipped
deriving DecidableEq

/-- Modelled from the spec: persistent node statuses of the run context.
    The transient ready and running states of the spec exist only inside one
    iteration of the serialized control loop and are therefore represented
    implicitly: ready is derived (pending with all prerequisites successful)
    and running never persists across loop iterations. -/
inductive NStatus where
  | pending
  | success
  | failed
  | skipped
deriving DecidableEq

/-- Modelled from the spec: one attempt-level execution record (section 3 of
    the spec); timestamps are drawn from a logical clock. -/
structure ExecutionRecord where
  process_group : Nat
  node_name : String
  attempt_number : Nat
  started_at : Option Nat
  ended_at : Option Nat
  status : RStatus
  error_message : Option String
deriving DecidableEq

def attemptRecord (pg : Nat) (name : String) (k : Nat) (clock : Nat)
    (out : RunnerOutcome) : ExecutionRecord :=
  match out with
  | .success => ⟨pg, name, k, some clock, some (clock + 1), .success, none⟩
  | .failure msg => ⟨pg, name, k, some clock, some (clock + 1), .failed, some msg⟩
  | .timeout msg => ⟨pg, name, k, some clock, some (clock + 1), .timeout, some msg⟩

/-- Modelled from the spec: the record logged for a node that is never
    attempted, with attempt number zero and no timestamps. -/
def skippedRecord (pg : Nat) (name : String) : ExecutionRecord :=
  ⟨pg, name, 0, none, none, .skipped, some "skipped due to upstream failure"⟩

/-- Modelled from the spec: the retry policy of one node; attempts are
    numbered from k, at most rem further attempts run, and the first success
    stops the sequence.  Returns the attempt records, whether some attempt
    succeeded, and the advanced clock. -/
def runAttempts (runner : DagNode → Nat → RunnerOutcome) (pg : Nat) (nd : DagNode) :
    Nat → Nat → Nat → List ExecutionRecord × Bool × Nat
  | _, 0, clock => ([], false, clock)
  | k, rem + 1, clock =>
    match runner nd k with
    | .success => ([attemptRecord pg nd.name k clock .success], true, clock + 2)
    | .failure msg =>
      let rest := runAttempts runner pg nd (k + 1) rem (clock + 2)
      (attemptRecord pg nd.name k clock (.failure msg) :: rest.1, rest.2.1, rest.2.2)
    | .timeout msg =>
      let rest := runAttempts runner pg nd (k + 1) rem (clock + 2)
      (attemptRecord pg nd.name k clock (.timeout msg) :: rest.1, rest.2.1, rest.2.2)

/-- Modelled from the spec: the ephemeral run context of one invocation. -/
structure SchedState where
  statuses : String → NStatus
  records : List ExecutionRecord
  clock : Nat

def updStatus (st : String → NStatus) (n : String) (v : NStatus) : String → NStatus :=
  fun m => if m = n then v else st m

def blockedDep (st : String → NStatus) (nd : DagNode) : Bool :=
  nd.dependencies.any (fun d => st d == NStatus.failed || st d == NStatus.skipped)

/-- Modelled from the spec: one round of skip propagation; a pending node
    with a failed or skipped prerequisite becomes skipped. -/
def skipPass (dag : List DagNode) (st : String → NStatus) : String → NStatus :=
  fun n =>
    match dag.find? (fun nd => nd.name == n) with
    | some nd =>
      if st n == NStatus.pending && blockedDep st nd then NStatus.skipped else st n
    | none => st n

def skipIter (dag : List DagNode) (st : String → NStatus) : Nat → (String → NStatus)
  | 0 => st
  | k + 1 => skipPass dag (skipIter dag st k)

/-- Modelled from the spec: transitive skip propagation, iterated to a
    fixpoint. -/
def skipClosure (dag : List DagNode) (st : String → NStatus) : String → NStatus :=
  skipIter dag st dag.length

/-- A node is ready when it is pending and every direct prerequisite has
    terminal success status. -/
def readyNode (st : String → NStatus) (nd : DagNode) : Bool :=
  st nd.name == NStatus.pending &&
    nd.dependencies.all (fun d => st d == NStatus.success)

def findReady (dag : List DagNode) (st : String → NStatus) : Option DagNode :=
  dag.find? (readyNode st)

def newlySkipped (dag : List DagNode) (stOld stNew : String → NStatus) : List DagNode :=
  dag.filter (fun m =>
    stNew m.name == NStatus.skipped && !(stOld m.name == NStatus.skipped))

/-- Modelled from the spec: processing of one dispatched node by the control
    loop: run its attempts, record them, and either mark it successful or
    mark it failed and propagate skips, logging skip records for every node
    newly skipped. -/
def dispatchStep (runner : DagNode → Nat → RunnerOutcome) (pg : Nat)
    (dag : List DagNode) (s : SchedState) (nd : DagNode) : SchedState :=
  let res := runAttempts runner pg nd 1 nd.retry_attempts s.clock
  if res.2.1 then
    { statuses := updStatus s.statuses nd.name NStatus.success,
      records := s.records ++ res.1, clock := res.2.2 }
  else
    { statuses := skipClosure dag (updStatus s.statuses nd.name NStatus.failed),
      records := s.records ++ res.1 ++
        (newlySkipped dag (updStatus s.statuses nd.name NStatus.failed)
          (skipClosure dag (updStatus s.statuses nd.name NStatus.failed))).map
            (fun m => skippedRecord pg m.name),
      clock := res.2.2 }

/-- Modelled from the spec: the serialized control loop; while some node is
    ready, dispatch one, otherwise stop. -/
def schedLoop (runner : DagNode → Nat → RunnerOutcome) (pg : Nat)
    (dag : List DagNode) : Nat → SchedState → SchedState
  | 0, s => s
  | fuel + 1, s =>
    match findReady dag s.statuses with
    | none => s
    | some nd => schedLoop runner pg dag fuel (dispatchStep runner pg dag s nd)

def initState : SchedState :=
  ⟨fun _ => NStatus.pending, [], 0⟩

/-- Modelled from the spec: a scheduler run over a built graph; returns the
    final status map and the complete record list in completion order. -/
def run (runner : DagNode → Nat → RunnerOutcome) (pg : Nat) (dag : List DagNode) :
    (String → NStatus) × List ExecutionRecord :=
  ((schedLoop runner pg dag dag.length initState).statuses,
   (schedLoop runner pg dag dag.length initState).records)

/-- Modelled from the spec: the whole pipeline; a build error aborts before
    any dispatch, so no run happens and no records are produced. -/
def buildAndRun (runner : DagNode → Nat → RunnerOutcome)
    (defs : List WorkUnitDefinition) (pg : Nat) :
    Except BuildError ((String → NStatus) × List ExecutionRecord) :=
  match build defs pg with
  | .error e => .error e
  | .ok dag => .ok (run runner pg dag)

def pipelineRecords (runner : DagNode → Nat → RunnerOutcome)
    (defs : List WorkUnitDefinition) (pg : Nat) : List ExecutionRecord :=
  match buildAndRun runner defs pg with
  | .error _ => []
  | .ok res => res.2

def recordsFor (n : String) (recs : List ExecutionRecord) : List ExecutionRecord :=
  recs.filter (fun r => r.node_name == n)

def attemptRecordsFor (n : String) (recs : List ExecutionRecord) : List ExecutionRecord :=
  recs.filter (fun r => r.node_name == n && r.attempt_number != 0)

/-- A runner that never reports success for the given node. -/
def alwaysFails (runner : DagNode → Nat → RunnerOutcome) (nd : DagNode) : Prop :=
  ∀ k, runner nd k ≠ RunnerOutcome.success

def terminalStatus : NStatus → Prop
  | .pending => False
  | _ => True

theorem ra_zero (runner : DagNode → Nat → RunnerOutcome) (pg : Nat) (nd : DagNode)
    (k c : Nat) : runAttempts runner pg nd k 0 c = ([], false, c) := rfl

theorem ra_succ_success {runner : DagNode → Nat → RunnerOutcome} {pg : Nat}
    {nd : DagNode} {k c rem : Nat} (hout : runner nd k = RunnerOutcome.success) :
    runAttempts runner pg nd k (rem + 1) c =
      ([attemptRecord pg nd.name k c RunnerOutcome.success], true, c + 2) := by
  simp only [runAttempts, hout]

theorem ra_succ_failure {runner : DagNode → Nat → RunnerOutcome} {pg : Nat}
    {nd : DagNode} {k c rem : Nat} {msg : String}
    (hout : runner nd k = RunnerOutcome.failure msg) :
    runAttempts runner pg nd k (rem + 1) c =
      (attemptRecord pg nd.name k c (RunnerOutcome.failure msg) ::
        (runAttempts runner pg nd (k + 1) rem (c + 2)).1,
        (runAttempts runner pg nd (k + 1) rem (c + 2)).2.1,
        (runAttempts runner pg nd (k + 1) rem (c + 2)).2.2) := by
  simp only [runAttempts, hout]

theorem ra_succ_timeout {runner : DagNode → Nat → RunnerOutcome} {pg : Nat}
    {nd : DagNode} {k c rem : Nat} {msg : String}
    (hout : runner nd k = RunnerOutcome.timeout msg) :
    runAttempts runner pg nd k (rem + 1) c =
      (attemptRecord pg nd.name k c (RunnerOutcome.timeout msg) ::
        (runAttempts runner pg nd (k + 1) rem (c + 2)).1,
        (runAttempts runner pg nd (k + 1) rem (c + 2)).2.1,
        (runAttempts runner pg nd (k + 1) rem (c + 2)).2.2) := by
  simp only [runAttempts, hout]

theorem ra_clock_le (runner : DagNode → Nat → RunnerOutcome) (pg : Nat) (nd : DagNode) :
    ∀ (rem k c : Nat), c ≤ (runAttempts runner pg nd k rem c).2.2 := by
  intro rem
  induction rem with
  | zero => intro k c; exact Nat.le_refl c
  | succ rem ih =>
    intro k c
    cases hout : runner nd k with
    | success => rw [ra_succ_success hout]; exact Nat.le_add_right c 2
    | failure msg =>
      rw [ra_succ_failure hout]
      exact Nat.le_trans (Nat.le_add_right c 2) (ih (k + 1) (c + 2))
    | timeout msg =>
      rw [ra_succ_timeout hout]
      exact Nat.le_trans (Nat.le_add_right c 2) (ih (k + 1) (c + 2))

theorem ra_mem (runner : DagNode → Nat → RunnerOutcome) (pg : Nat) (nd : DagNode) :
    ∀ (rem k c : Nat), ∀ r ∈ (runAttempts runner pg nd k rem c).1,
      r.node_name = nd.name ∧ r.process_group = pg ∧ r.status ≠ RStatus.skipped ∧
      (r.error_message.isSome = true ↔ r.status ≠ RStatus.success) ∧
      ∃ s0 e, r.started_at = some s0 ∧ r.ended_at = some e ∧ s0 < e ∧ c ≤ s0 ∧
        e < (runAttempts runner pg nd k rem c).2.2 := by
  intro rem
  induction rem with
  | zero => intro k c r hr; cases hr
  | succ rem ih =>
    intro k c r hr
    cases hout : runner nd k with
    | success =>
      rw [ra_succ_success hout] at hr ⊢
      rcases List.mem_singleton.mp hr with rfl
      refine ⟨rfl, rfl, by simp [attemptRecord], by simp [attemptRecord], c, c + 1,
        rfl, rfl, Nat.lt_succ_self c, Nat.le_refl c, by dsimp only; omega⟩
    | failure msg =>
      rw [ra_succ_failure hout] at hr ⊢
      rcases List.mem_cons.mp hr with rfl | hr2
      · refine ⟨rfl, rfl, by simp [attemptRecord], by simp [attemptRecord], c, c + 1,
          rfl, rfl, Nat.lt_succ_self c, Nat.le_refl c, ?_⟩
        have := ra_clock_le runner pg nd rem (k + 1) (c + 2)
        dsimp only
        omega
      · obtain ⟨h1, h2, h3, h4, s0, e, h5, h6, h7, h8, h9⟩ := ih (k + 1) (c + 2) r hr2
        exact ⟨h1, h2, h3, h4, s0, e, h5, h6, h7, by omega, h9⟩
    | timeout msg =>
      rw [ra_succ_timeout hout] at hr ⊢
      rcases List.mem_cons.mp hr with rfl | hr2
      · refine ⟨rfl, rfl, by simp [attemptRecord], by simp [attemptRecord], c, c + 1,
          rfl, rfl, Nat.lt_succ_self c, Nat.le_refl c, ?_⟩
        have := ra_clock_le runner pg nd rem (k + 1) (c + 2)
        dsimp only
        omega
      · obtain ⟨h1, h2, h3, h4, s0, e, h5, h6, h7, h8, h9⟩ := ih (k + 1) (c + 2) r hr2
        exact ⟨h1, h2, h3, h4, s0, e, h5, h6, h7, by omega, h9⟩

theorem ra_attempt_numbers (runner : DagNode → Nat → RunnerOutcome) (pg : Nat)
    (nd : DagNode) :
    ∀ (rem k c : Nat),
      ((runAttempts runner pg nd k rem c).1).map (fun r => r.attempt_number) =
        List.range' k ((runAttempts runner pg nd k rem c).1).length := by
  intro rem
  induction rem with
  | zero => intro k c; rfl
  | succ rem ih =>
    intro k c
    cases hout : runner nd k with
    | success => rw [ra_succ_success hout]; simp [attemptRecord, List.range'_succ]
    | failure msg =>
      rw [ra_succ_failure hout]
      simp only [List.map_cons, List.length_cons, List.range'_succ]
      rw [ih (k + 1) (c + 2)]
      simp [attemptRecord]
    | timeout msg =>
      rw [ra_succ_timeout hout]
      simp only [List.map_cons, List.length_cons, List.range'_succ]
      rw [ih (k + 1) (c + 2)]
      simp [attemptRecord]

theorem ra_ok_success_rec (runner : DagNode → Nat → RunnerOutcome) (pg : Nat)
    (nd : DagNode) :
    ∀ (rem k c : Nat), (runAttempts runner pg nd k rem c).2.1 = true →
      ∃ r ∈ (runAttempts runner pg nd k rem c).1, r.status = RStatus.success := by
  intro rem
  induction rem with
  | zero => intro k c h; cases h
  | succ rem ih =>
    intro k c h
    cases hout : runner nd k with
    | success =>
      rw [ra_succ_success hout]
      exact ⟨_, List.mem_singleton_self _, rfl⟩
    | failure msg =>
      rw [ra_succ_failure hout] at h ⊢
      obtain ⟨r, hr, hs⟩ := ih (k + 1) (c + 2) h
      exact ⟨r, List.mem_cons_of_mem _ hr, hs⟩
    | timeout msg =>
      rw [ra_succ_timeout hout] at h ⊢
      obtain ⟨r, hr, hs⟩ := ih (k + 1) (c + 2) h
      exact ⟨r, List.mem_cons_of_mem _ hr, hs⟩

theorem ra_alwaysFails (runner : DagNode → Nat → RunnerOutcome) (pg : Nat)
    (nd : DagNode) (hfail : alwaysFails runner nd) :
    ∀ (rem k c : Nat),
      (runAttempts runner pg nd k rem c).2.1 = false ∧
      ((runAttempts runner pg nd k rem c).1).length = rem ∧
      ∀ r ∈ (runAttempts runner pg nd k rem c).1,
        r.status = RStatus.failed ∨ r.status = RStatus.timeout := by
  intro rem
  induction rem with
  | zero => intro k c; exact ⟨rfl, rfl, fun r hr => absurd hr (List.not_mem_nil r)⟩
  | succ rem ih =>
    intro k c
    cases hout : runner nd k with
    | success => exact absurd hout (hfail k)
    | failure msg =>
      rw [ra_succ_failure hout]
      obtain ⟨h1, h2, h3⟩ := ih (k + 1) (c + 2)
      refine ⟨h1, by simpa using h2, ?_⟩
      intro r hr
      rcases List.mem_cons.mp hr with rfl | hr2
      · exact Or.inl rfl
      · exact h3 r hr2
    | timeout msg =>
      rw [ra_succ_timeout hout]
      obtain ⟨h1, h2, h3⟩ := ih (k + 1) (c + 2)
      refine ⟨h1, by simpa using h2, ?_⟩
      intro r hr
      rcases List.mem_cons.mp hr with rfl | hr2
      · exact Or.inr rfl
      · exact h3 r hr2

theorem ra_pairwise (runner : DagNode → Nat → RunnerOutcome) (pg : Nat)
    (nd : DagNode) :
    ∀ (rem k c : Nat),
      List.Pairwise (fun r1 r2 => ∀ e ∈ r1.ended_at, ∀ s0 ∈ r2.started_at, e < s0)
        (runAttempts runner pg nd k rem c).1 := by
  intro rem
  induction rem with
  | zero => intro k c; exact List.Pairwise.nil
  | succ rem ih =>
    intro k c
    cases hout : runner nd k with
    | success => rw [ra_succ_success hout]; simp
    | failure msg =>
      rw [ra_succ_failure hout]
      rw [List.pairwise_cons]
      refine ⟨?_, ih (k + 1) (c + 2)⟩
      intro r2 hr2 e he s0 hs0
      obtain ⟨-, -, -, -, s1, e1, h5, h6, -, h8, -⟩ :=
        ra_mem runner pg nd rem (k + 1) (c + 2) r2 hr2
      simp only [attemptRecord, Option.mem_some_iff] at he
      rw [h5, Option.mem_some_iff] at hs0
      omega
    | timeout msg =>
      rw [ra_succ_timeout hout]
      rw [List.pairwise_cons]
      refine ⟨?_, ih (k + 1) (c + 2)⟩
      intro r2 hr2 e he s0 hs0
      obtain ⟨-, -, -, -, s1, e1, h5, h6, -, h8, -⟩ :=
        ra_mem runner pg nd rem (k + 1) (c + 2) r2 hr2
      simp only [attemptRecord, Option.mem_some_iff] at he
      rw [h5, Option.mem_some_iff] at hs0
      omega

def countPend (dag : List DagNode) (st : String → NStatus) : Nat :=
  (dag.filter (fun nd => st nd.name == NStatus.pending)).length

theorem filter_length_le {α : Type} (p q : α → Bool) :
    ∀ (l : List α), (∀ x ∈ l, q x = true → p x = true) →
      (l.filter q).length ≤ (l.filter p).length := by
  intro l
  induction l with
  | nil => intro _; exact Nat.le_refl 0
  | cons a t ih =>
    intro h
    have ih2 := ih (fun x hx => h x (List.mem_cons_of_mem _ hx))
    rw [List.filter_cons, List.filter_cons]
    by_cases hq : q a = true
    · rw [if_pos hq, if_pos (h a (List.mem_cons_self _ _) hq)]
      simpa using ih2
    · rw [if_neg hq]
      by_cases hp : p a = true
      · rw [if_pos hp]
        exact Nat.le_trans ih2 (by simp)
      · rw [if_neg hp]
        exact ih2

theorem filter_length_lt {α : Type} (p q : α → Bool) :
    ∀ (l : List α), (∀ x ∈ l, q x = true → p x = true) →
      ∀ x0, x0 ∈ l → p x0 = true → q x0 = false →
        (l.filter q).length < (l.filter p).length := by
  intro l
  induction l with
  | nil => intro _ x0 hx0; cases hx0
  | cons a t ih =>
    intro h x0 hx0 hp hq
    have hsub : ∀ x ∈ t, q x = true → p x = true :=
      fun x hx => h x (List.mem_cons_of_mem _ hx)
    rw [List.filter_cons, List.filter_cons]
    rcases List.mem_cons.mp hx0 with rfl | hx0t
    · rw [if_neg (by rw [hq]; exact Bool.false_ne_true), if_pos hp]
      have := filter_length_le p q t hsub
      simp only [List.length_cons]
      omega
    · by_cases hqa : q a = true
      · rw [if_pos hqa, if_pos (h a (List.mem_cons_self _ _) hqa)]
        simpa using ih hsub x0 hx0t hp hq
      · rw [if_neg hqa]
        by_cases hpa : p a = true
        · rw [if_pos hpa]
          have := ih hsub x0 hx0t hp hq
          simp only [List.length_cons]
          omega
        · rw [if_neg hpa]
          exact ih hsub x0 hx0t hp hq

theorem updStatus_same (st : String → NStatus) (n : String) (v : NStatus) :
    updStatus st n v n = v := if_pos rfl

theorem updStatus_other (st : String → NStatus) (n : String) (v : NStatus)
    {m : String} (h : m ≠ n) : updStatus st n v m = st m := if_neg h

theorem skipPass_cases (dag : List DagNode) (st : String → NStatus) (n : String) :
    skipPass dag st n = st n ∨
      (skipPass dag st n = NStatus.skipped ∧ st n = NStatus.pending) := by
  unfold skipPass
  cases h : dag.find? (fun nd => nd.name == n) with
  | none => exact Or.inl rfl
  | some nd =>
    dsimp only
    by_cases hc : (st n == NStatus.pending && blockedDep st nd) = true
    · rw [if_pos hc]
      exact Or.inr ⟨rfl, beq_iff_eq.mp (Bool.and_eq_true .. |>.mp hc).1⟩
    · rw [if_neg hc]
      exact Or.inl rfl

theorem skipIter_cases (dag : List DagNode) (st : String → NStatus) :
    ∀ (k : Nat) (n : String), skipIter dag st k n = st n ∨
      (skipIter dag st k n = NStatus.skipped ∧ st n = NStatus.pending) := by
  intro k
  induction k with
  | zero => intro n; exact Or.inl rfl
  | succ k ih =>
    intro n
    have hstep : skipIter dag st (k + 1) n = skipPass dag (skipIter dag st k) n := rfl
    rcases skipPass_cases dag (skipIter dag st k) n with h | ⟨h1, h2⟩
    · rw [hstep, h]
      exact ih n
    · rcases ih n with h3 | ⟨-, h4⟩
      · exact Or.inr ⟨hstep ▸ h1, h3 ▸ h2⟩
      · exact Or.inr ⟨hstep ▸ h1, h4⟩

theorem skipIter_of_ne_pending {dag : List DagNode} {st : String → NStatus}
    {n : String} (h : st n ≠ NStatus.pending) (k : Nat) :
    skipIter dag st k n = st n := by
  rcases skipIter_cases dag st k n with h1 | ⟨-, h2⟩
  · exact h1
  · exact absurd h2 h

theorem skipIter_shift (dag : List DagNode) (st : String → NStatus) :
    ∀ k, skipIter dag st (k + 1) = skipIter dag (skipPass dag st) k := by
  intro k
  induction k with
  | zero => rfl
  | succ k ih =>
    show skipPass dag (skipIter dag st (k + 1)) =
      skipPass dag (skipIter dag (skipPass dag st) k)
    rw [ih]

theorem skipIter_const {dag : List DagNode} {st : String → NStatus}
    (h : skipPass dag st = st) : ∀ k, skipIter dag st k = st := by
  intro k
  induction k with
  | zero => rfl
  | succ k ih =>
    show skipPass dag (skipIter dag st k) = st
    rw [ih, h]

theorem skipPass_pending_src {dag : List DagNode} {st : String → NStatus}
    {n : String} (h : skipPass dag st n = NStatus.pending) : st n = NStatus.pending := by
  rcases skipPass_cases dag st n with h1 | ⟨h1, -⟩
  · rw [← h1, h]
  · rw [h] at h1
    cases h1

theorem skipPass_ne_dec (dag : List DagNode) (st : String → NStatus)
    (h : skipPass dag st ≠ st) :
    countPend dag (skipPass dag st) < countPend dag st := by
  have hex : ∃ n, skipPass dag st n ≠ st n := by
    by_contra hall
    push_neg at hall
    exact h (funext hall)
  obtain ⟨n, hn⟩ := hex
  rcases skipPass_cases dag st n with heq | ⟨h1, h2⟩
  · exact absurd heq hn
  obtain ⟨nd0, hnd0⟩ : ∃ nd, dag.find? (fun nd => nd.name == n) = some nd := by
    cases hf : dag.find? (fun nd => nd.name == n) with
    | none =>
      exfalso
      apply hn
      unfold skipPass
      rw [hf]
    | some nd => exact ⟨nd, rfl⟩
  have hmem : nd0 ∈ dag := List.mem_of_find?_eq_some hnd0
  have hbeq := List.find?_some hnd0
  have hname : nd0.name = n := beq_iff_eq.mp hbeq
  unfold countPend
  apply filter_length_lt _ _ dag
    (fun x _ hq => beq_iff_eq.mpr (skipPass_pending_src (beq_iff_eq.mp hq)))
    nd0 hmem
  · rw [hname]
    exact beq_iff_eq.mpr h2
  · rw [hname, h1]
    rfl

theorem skipIter_fix (dag : List DagNode) :
    ∀ (n : Nat) (st : String → NStatus), countPend dag st ≤ n →
      skipPass dag (skipIter dag st n) = skipIter dag st n := by
  intro n
  induction n with
  | zero =>
    intro st hc
    show skipPass dag st = st
    funext m
    unfold skipPass
    cases hf : dag.find? (fun nd => nd.name == m) with
    | none => rfl
    | some nd =>
      have hmem := List.mem_of_find?_eq_some hf
      have hbeq := List.find?_some hf
      have hname : nd.name = m := beq_iff_eq.mp hbeq
      dsimp only
      by_cases hp : st m = NStatus.pending
      · exfalso
        have hin : nd ∈ dag.filter (fun nd => st nd.name == NStatus.pending) :=
          List.mem_filter.mpr ⟨hmem, by rw [hname]; exact beq_iff_eq.mpr hp⟩
        have hlen := List.length_pos.mpr (List.ne_nil_of_mem hin)
        unfold countPend at hc
        omega
      · rw [if_neg]
        intro hcond
        exact hp (beq_iff_eq.mp (Bool.and_eq_true .. |>.mp hcond).1)
  | succ n ih =>
    intro st hc
    by_cases hfix : skipPass dag st = st
    · rw [skipIter_const hfix]
      exact hfix
    · rw [skipIter_shift]
      exact ih (skipPass dag st) (by
        have := skipPass_ne_dec dag st hfix
        omega)

theorem skipClosure_fix (dag : List DagNode) (st : String → NStatus) :
    skipPass dag (skipClosure dag st) = skipClosure dag st :=
  skipIter_fix dag dag.length st (List.length_filter_le _ _)

theorem skipClosure_noblock {dag : List DagNode} {st : String → NStatus}
    (hn : (dagNames dag).Nodup) :
    ∀ nd ∈ dag, skipClosure dag st nd.name = NStatus.pending →
      blockedDep (skipClosure dag st) nd = false := by
  intro nd hmem hp
  have heq := congrFun (skipClosure_fix dag st) nd.name
  unfold skipPass at heq
  rw [find?_name_eq hn hmem] at heq
  dsimp only at heq
  by_cases hb : blockedDep (skipClosure dag st) nd = true
  · exfalso
    have hcond : (skipClosure dag st nd.name == NStatus.pending &&
        blockedDep (skipClosure dag st) nd) = true := by
      rw [hp, hb]
      rfl
    rw [if_pos hcond, hp] at heq
    cases heq
  · exact Bool.not_eq_true _ ▸ hb

theorem skipClosure_cases (dag : List DagNode) (st : String → NStatus) (n : String) :
    skipClosure dag st n = st n ∨
      (skipClosure dag st n = NStatus.skipped ∧ st n = NStatus.pending) :=
  skipIter_cases dag st dag.length n

theorem skipClosure_of_ne_pending {dag : List DagNode} {st : String → NStatus}
    {n : String} (h : st n ≠ NStatus.pending) : skipClosure dag st n = st n :=
  skipIter_of_ne_pending h dag.length

theorem skipClosure_pending_src {dag : List DagNode} {st : String → NStatus}
    {n : String} (h : skipClosure dag st n = NStatus.pending) :
    st n = NStatus.pending := by
  rcases skipClosure_cases dag st n with h1 | ⟨h1, -⟩
  · rw [← h1, h]
  · rw [h] at h1
    cases h1

theorem recordsFor_append (n : String) (a b : List ExecutionRecord) :
    recordsFor n (a ++ b) = recordsFor n a ++ recordsFor n b :=
  List.filter_append a b

theorem recordsFor_eq_self {n : String} {l : List ExecutionRecord}
    (h : ∀ r ∈ l, r.node_name = n) : recordsFor n l = l := by
  unfold recordsFor
  rw [List.filter_eq_self]
  intro r hr
  exact beq_iff_eq.mpr (h r hr)

theorem recordsFor_eq_nil {n : String} {l : List ExecutionRecord}
    (h : ∀ r ∈ l, r.node_name ≠ n) : recordsFor n l = [] := by
  unfold recordsFor
  rw [List.filter_eq_nil_iff]
  intro r hr hc
  exact h r hr (beq_iff_eq.mp hc)

theorem findReady_some {dag : List DagNode} {st : String → NStatus} {nd : DagNode}
    (h : findReady dag st = some nd) :
    nd ∈ dag ∧ st nd.name = NStatus.pending ∧
      ∀ d ∈ nd.dependencies, st d = NStatus.success := by
  have hmem := List.mem_of_find?_eq_some h
  have hp := List.find?_some h
  unfold readyNode at hp
  rw [Bool.and_eq_true] at hp
  exact ⟨hmem, beq_iff_eq.mp hp.1,
    fun d hd => beq_iff_eq.mp (List.all_eq_true.mp hp.2 d hd)⟩

theorem findReady_none {dag : List DagNode} {st : String → NStatus}
    (h : findReady dag st = none) :
    ∀ nd ∈ dag, st nd.name = NStatus.pending →
      ∃ d ∈ nd.dependencies, st d ≠ NStatus.success := by
  intro nd hnd hp
  have hnr := List.find?_eq_none.mp h nd hnd
  by_contra hall
  push_neg at hall
  apply hnr
  unfold readyNode
  rw [Bool.and_eq_true]
  exact ⟨beq_iff_eq.mpr hp,
    List.all_eq_true.mpr (fun d hd => beq_iff_eq.mpr (hall d hd))⟩

theorem blockedDep_false_iff {st : String → NStatus} {nd : DagNode} :
    blockedDep st nd = false ↔
      ∀ d ∈ nd.dependencies, st d ≠ NStatus.failed ∧ st d ≠ NStatus.skipped := by
  unfold blockedDep
  rw [List.any_eq_false]
  constructor
  · intro h d hd
    have := h d hd
    rw [Bool.not_eq_true, Bool.or_eq_false_iff] at this
    exact ⟨fun he => by rw [he] at this; exact absurd this.1 (by simp),
      fun he => by rw [he] at this; exact absurd this.2 (by simp)⟩
  · intro h d hd
    rw [Bool.not_eq_true, Bool.or_eq_false_iff]
    obtain ⟨h1, h2⟩ := h d hd
    constructor
    · rw [Bool.eq_false_iff]
      intro hb
      exact h1 (beq_iff_eq.mp hb)
    · rw [Bool.eq_false_iff]
      intro hb
      exact h2 (beq_iff_eq.mp hb)

theorem mem_newlySkipped {dag : List DagNode} {st1 st2 : String → NStatus}
    {m : DagNode} :
    m ∈ newlySkipped dag st1 st2 ↔
      m ∈ dag ∧ st2 m.name = NStatus.skipped ∧ st1 m.name ≠ NStatus.skipped := by
  unfold newlySkipped
  rw [List.mem_filter, Bool.and_eq_true]
  constructor
  · intro ⟨h1, h2, h3⟩
    refine ⟨h1, beq_iff_eq.mp h2, ?_⟩
    rw [Bool.not_eq_true', Bool.eq_false_iff] at h3
    exact fun he => h3 (beq_iff_eq.mpr he)
  · intro ⟨h1, h2, h3⟩
    refine ⟨h1, beq_iff_eq.mpr h2, ?_⟩
    rw [Bool.not_eq_true', Bool.eq_false_iff]
    exact fun hb => h3 (beq_iff_eq.mp hb)

theorem newlySkipped_names_nodup {dag : List DagNode} {st1 st2 : String → NStatus}
    (hn : (dagNames dag).Nodup) :
    ((newlySkipped dag st1 st2).map DagNode.name).Nodup :=
  ((List.filter_sublist dag).map DagNode.name).nodup hn

theorem recordsFor_skips_of_mem {pg : Nat} {n : String} :
    ∀ {l : List DagNode}, (l.map DagNode.name).Nodup →
      ∀ {m0 : DagNode}, m0 ∈ l → m0.name = n →
        recordsFor n (l.map (fun m => skippedRecord pg m.name)) =
          [skippedRecord pg n] := by
  intro l
  induction l with
  | nil => intro _ m0 hm0; cases hm0
  | cons a t ih =>
    intro hnd m0 hm0 hname
    have hcons := List.nodup_cons.mp hnd
    rcases List.mem_cons.mp hm0 with rfl | hm0t
    · show recordsFor n (skippedRecord pg m0.name ::
        t.map (fun m => skippedRecord pg m.name)) = [skippedRecord pg n]
      unfold recordsFor
      rw [List.filter_cons, if_pos (by
        show ((skippedRecord pg m0.name).node_name == n) = true
        exact beq_iff_eq.mpr hname)]
      rw [hname]
      congr 1
      rw [List.filter_eq_nil_iff]
      intro r hr hc
      obtain ⟨m, hm, rfl⟩ := List.mem_map.mp hr
      have : m.name = n := beq_iff_eq.mp hc
      exact hcons.1 (hname ▸ this ▸ List.mem_map.mpr ⟨m, hm, rfl⟩)
    · show recordsFor n (skippedRecord pg a.name ::
        t.map (fun m => skippedRecord pg m.name)) = [skippedRecord pg n]
      unfold recordsFor
      rw [List.filter_cons, if_neg (by
        show ¬ ((skippedRecord pg a.name).node_name == n) = true
        intro hc
        have han : a.name = n := beq_iff_eq.mp hc
        exact hcons.1 (han ▸ hname ▸ List.mem_map.mpr ⟨m0, hm0t, rfl⟩))]
      exact ih hcons.2 hm0t hname

theorem recordsFor_skips_of_not_mem {pg : Nat} {n : String} {l : List DagNode}
    (h : ∀ m ∈ l, m.name ≠ n) :
    recordsFor n (l.map (fun m => skippedRecord pg m.name)) = [] := by
  apply recordsFor_eq_nil
  intro r hr
  obtain ⟨m, hm, rfl⟩ := List.mem_map.mp hr
  exact h m hm

theorem pairwise_of_left {α : Type} {R : α → α → Prop} :
    ∀ {l : List α}, (∀ a ∈ l, ∀ b, R a b) → List.Pairwise R l := by
  intro l
  induction l with
  | nil => intro _; exact List.Pairwise.nil
  | cons a t ih =>
    intro h
    rw [List.pairwise_cons]
    exact ⟨fun b _ => h a (List.mem_cons_self _ _) b,
      ih (fun x hx b => h x (List.mem_cons_of_mem _ hx) b)⟩

/-- Per-node accounting of records by status: a pending node has no records,
    a successful or failed node has exactly the records of its one dispatch,
    a skipped node has exactly its skip record. -/
def nodeRecInv (runner : DagNode → Nat → RunnerOutcome) (pg : Nat) (nd : DagNode)
    (s : SchedState) : Prop :=
  (s.statuses nd.name = NStatus.pending → recordsFor nd.name s.records = []) ∧
  (s.statuses nd.name = NStatus.success → ∃ c0,
    recordsFor nd.name s.records = (runAttempts runner pg nd 1 nd.retry_attempts c0).1 ∧
    (runAttempts runner pg nd 1 nd.retry_attempts c0).2.1 = true ∧
    (runAttempts runner pg nd 1 nd.retry_attempts c0).2.2 ≤ s.clock) ∧
  (s.statuses nd.name = NStatus.failed → ∃ c0,
    recordsFor nd.name s.records = (runAttempts runner pg nd 1 nd.retry_attempts c0).1 ∧
    (runAttempts runner pg nd 1 nd.retry_attempts c0).2.1 = false ∧
    (runAttempts runner pg nd 1 nd.retry_attempts c0).2.2 ≤ s.clock) ∧
  (s.statuses nd.name = NStatus.skipped →
    recordsFor nd.name s.records = [skippedRecord pg nd.name])

/-- The control-loop invariant of the scheduler model. -/
structure Inv (runner : DagNode → Nat → RunnerOutcome) (pg : Nat)
    (dag : List DagNode) (s : SchedState) : Prop where
  pendingDeps : ∀ nd ∈ dag, s.statuses nd.name = NStatus.pending →
    ∀ d ∈ nd.dependencies,
      s.statuses d ≠ NStatus.failed ∧ s.statuses d ≠ NStatus.skipped
  doneDeps : ∀ nd ∈ dag,
    (s.statuses nd.name = NStatus.success ∨ s.statuses nd.name = NStatus.failed) →
    ∀ d ∈ nd.dependencies, s.statuses d = NStatus.success
  recShape : ∀ nd ∈ dag, nodeRecInv runner pg nd s
  recNames : ∀ r ∈ s.records, r.node_name ∈ dagNames dag ∧ r.process_group = pg
  endedLt : ∀ r ∈ s.records, ∀ e ∈ r.ended_at, e < s.clock
  successRec : ∀ x : String, s.statuses x = NStatus.success →
    ∃ r ∈ s.records, r.node_name = x ∧ r.status = RStatus.success ∧
      ∃ e, r.ended_at = some e
  dispatchOrder : ∀ nd ∈ dag, ∀ r ∈ s.records, r.node_name = nd.name →
    1 ≤ r.attempt_number → ∀ d ∈ nd.dependencies,
      ∃ rd ∈ s.records, rd.node_name = d ∧ rd.status = RStatus.success ∧
        ∃ e s0, rd.ended_at = some e ∧ r.started_at = some s0 ∧ e < s0
  pairwiseOrder : List.Pairwise
    (fun r1 r2 => ∀ e ∈ r1.ended_at, ∀ s0 ∈ r2.started_at, e < s0) s.records

theorem init_inv (runner : DagNode → Nat → RunnerOutcome) (pg : Nat)
    (dag : List DagNode) : Inv runner pg dag initState := by
  constructor
  · intro nd _ _ d _
    exact ⟨fun h => NStatus.noConfusion h, fun h => NStatus.noConfusion h⟩
  · intro nd _ h
    rcases h with h | h
    · exact NStatus.noConfusion h
    · exact NStatus.noConfusion h
  · intro nd _
    exact ⟨fun _ => rfl, fun h => NStatus.noConfusion h, fun h => NStatus.noConfusion h,
      fun h => NStatus.noConfusion h⟩
  · intro r hr
    cases hr
  · intro r hr
    cases hr
  · intro x h
    exact NStatus.noConfusion h
  · intro nd _ r hr
    cases hr
  · exact List.Pairwise.nil

theorem dispatchStep_ok {runner : DagNode → Nat → RunnerOutcome} {pg : Nat}
    {dag : List DagNode} {s : SchedState} {nd : DagNode}
    (h : (runAttempts runner pg nd 1 nd.retry_attempts s.clock).2.1 = true) :
    dispatchStep runner pg dag s nd =
      ⟨updStatus s.statuses nd.name NStatus.success,
       s.records ++ (runAttempts runner pg nd 1 nd.retry_attempts s.clock).1,
       (runAttempts runner pg nd 1 nd.retry_attempts s.clock).2.2⟩ := by
  simp only [dispatchStep]
  rw [if_pos h]

theorem dispatchStep_fail {runner : DagNode → Nat → RunnerOutcome} {pg : Nat}
    {dag : List DagNode} {s : SchedState} {nd : DagNode}
    (h : (runAttempts runner pg nd 1 nd.retry_attempts s.clock).2.1 = false) :
    dispatchStep runner pg dag s nd =
      ⟨skipClosure dag (updStatus s.statuses nd.name NStatus.failed),
       s.records ++ (runAttempts runner pg nd 1 nd.retry_attempts s.clock).1 ++
         (newlySkipped dag (updStatus s.statuses nd.name NStatus.failed)
           (skipClosure dag (updStatus s.statuses nd.name NStatus.failed))).map
             (fun m => skippedRecord pg m.name),
       (runAttempts runner pg nd 1 nd.retry_attempts s.clock).2.2⟩ := by
  simp only [dispatchStep]
  rw [if_neg (by rw [h]; exact Bool.false_ne_true)]

theorem dispatch_inv_ok {runner : DagNode → Nat → RunnerOutcome} {pg : Nat}
    {dag : List DagNode} {s : SchedState} {nd : DagNode}
    (hn : (dagNames dag).Nodup) (hinv : Inv runner pg dag s)
    (hfound : findReady dag s.statuses = some nd)
    (hok : (runAttempts runner pg nd 1 nd.retry_attempts s.clock).2.1 = true) :
    Inv runner pg dag (dispatchStep runner pg dag s nd) := by
  obtain ⟨hnd, hpend, hdeps⟩ := findReady_some hfound
  have hinj : ∀ {a b : DagNode}, a ∈ dag → b ∈ dag → a.name = b.name → a = b :=
    fun ha hb he => List.inj_on_of_nodup_map hn ha hb he
  have hselfdep : ∀ d ∈ nd.dependencies, d ≠ nd.name := by
    intro d hd heq
    have hs := hdeps d hd
    rw [heq, hpend] at hs
    cases hs
  have hbmem := ra_mem runner pg nd nd.retry_attempts 1 s.clock
  have hclk := ra_clock_le runner pg nd nd.retry_attempts 1 s.clock
  rw [dispatchStep_ok hok]
  constructor
  case pendingDeps =>
    intro m hm hp d hd
    dsimp only at hp ⊢
    by_cases hmn : m.name = nd.name
    · rw [hmn, updStatus_same] at hp
      cases hp
    · rw [updStatus_other _ _ _ hmn] at hp
      have hold := hinv.pendingDeps m hm hp d hd
      by_cases hdn : d = nd.name
      · rw [hdn, updStatus_same]
        exact ⟨fun h => NStatus.noConfusion h, fun h => NStatus.noConfusion h⟩
      · rw [updStatus_other _ _ _ hdn]
        exact hold
  case doneDeps =>
    intro m hm hstat d hd
    dsimp only at hstat ⊢
    by_cases hmn : m.name = nd.name
    · have hmeq : m = nd := hinj hm hnd hmn
      subst hmeq
      rw [updStatus_other _ _ _ (hselfdep d hd)]
      exact hdeps d hd
    · rw [updStatus_other _ _ _ hmn] at hstat
      have hold := hinv.doneDeps m hm hstat d hd
      by_cases hdn : d = nd.name
      · rw [hdn, hpend] at hold
        cases hold
      · rw [updStatus_other _ _ _ hdn]
        exact hold
  case recShape =>
    intro m hm
    unfold nodeRecInv
    dsimp only
    by_cases hmn : m.name = nd.name
    · have hmeq : m = nd := hinj hm hnd hmn
      subst hmeq
      refine ⟨?_, ?_, ?_, ?_⟩
      · intro h
        rw [updStatus_same] at h
        cases h
      · intro _
        refine ⟨s.clock, ?_, hok, Nat.le_refl _⟩
        show recordsFor m.name (s.records ++ _) = _
        rw [recordsFor_append, (hinv.recShape m hm).1 hpend,
          recordsFor_eq_self (fun r hr => (hbmem r hr).1), List.nil_append]
      · intro h
        rw [updStatus_same] at h
        cases h
      · intro h
        rw [updStatus_same] at h
        cases h
    · have hrfor : recordsFor m.name
          (s.records ++ (runAttempts runner pg nd 1 nd.retry_attempts s.clock).1) =
          recordsFor m.name s.records := by
        rw [recordsFor_append,
          recordsFor_eq_nil (fun r hr heq =>
            hmn (((hbmem r hr).1.symm.trans heq).symm)),
          List.append_nil]
      obtain ⟨o1, o2, o3, o4⟩ := hinv.recShape m hm
      refine ⟨?_, ?_, ?_, ?_⟩
      · intro h
        rw [updStatus_other _ _ _ hmn] at h
        show recordsFor m.name (s.records ++ _) = []
        rw [hrfor]
        exact o1 h
      · intro h
        rw [updStatus_other _ _ _ hmn] at h
        obtain ⟨c0, he, hb, hc⟩ := o2 h
        exact ⟨c0, by rw [hrfor]; exact he, hb, Nat.le_trans hc hclk⟩
      · intro h
        rw [updStatus_other _ _ _ hmn] at h
        obtain ⟨c0, he, hb, hc⟩ := o3 h
        exact ⟨c0, by rw [hrfor]; exact he, hb, Nat.le_trans hc hclk⟩
      · intro h
        rw [updStatus_other _ _ _ hmn] at h
        show recordsFor m.name (s.records ++ _) = _
        rw [hrfor]
        exact o4 h
  case recNames =>
    intro r hr
    dsimp only at hr
    rcases List.mem_append.mp hr with hr | hr
    · exact hinv.recNames r hr
    · refine ⟨?_, (hbmem r hr).2.1⟩
      rw [(hbmem r hr).1]
      exact List.mem_map.mpr ⟨nd, hnd, rfl⟩
  case endedLt =>
    intro r hr e he
    dsimp only at hr ⊢
    rcases List.mem_append.mp hr with hr | hr
    · exact Nat.lt_of_lt_of_le (hinv.endedLt r hr e he) hclk
    · obtain ⟨-, -, -, -, s0, e1, -, h6, -, -, h9⟩ := hbmem r hr
      rw [h6, Option.mem_some_iff] at he
      exact he ▸ h9
  case successRec =>
    intro x hx
    dsimp only at hx ⊢
    by_cases hxn : x = nd.name
    · subst hxn
      obtain ⟨r, hr, hst⟩ := ra_ok_success_rec runner pg nd nd.retry_attempts 1 s.clock hok
      obtain ⟨h1, -, -, -, s0, e, -, h6, -⟩ := hbmem r hr
      exact ⟨r, List.mem_append_right _ hr, h1, hst, e, h6⟩
    · rw [updStatus_other _ _ _ hxn] at hx
      obtain ⟨r, hr, h1, h2, h3⟩ := hinv.successRec x hx
      exact ⟨r, List.mem_append_left _ hr, h1, h2, h3⟩
  case dispatchOrder =>
    intro m hm r hr hrname hratt d hd
    dsimp only at hr ⊢
    rcases List.mem_append.mp hr with hr | hr
    · obtain ⟨rd, hrd, hh⟩ := hinv.dispatchOrder m hm r hr hrname hratt d hd
      exact ⟨rd, List.mem_append_left _ hrd, hh⟩
    · have hmeq : m = nd := hinj hm hnd (by rw [← hrname, (hbmem r hr).1])
      subst hmeq
      have hds := hdeps d hd
      obtain ⟨rd, hrd, hq1, hq2, e, hq3⟩ := hinv.successRec d hds
      have helt := hinv.endedLt rd hrd e (by rw [hq3]; rfl)
      obtain ⟨-, -, -, -, s0, e1, h5, -, -, h8, -⟩ := hbmem r hr
      exact ⟨rd, List.mem_append_left _ hrd, hq1, hq2, e, s0, hq3, h5, by omega⟩
  case pairwiseOrder =>
    dsimp only
    rw [List.pairwise_append]
    refine ⟨hinv.pairwiseOrder, ra_pairwise runner pg nd nd.retry_attempts 1 s.clock, ?_⟩
    intro r1 hr1 r2 hr2 e he s0 hs0
    have h1 := hinv.endedLt r1 hr1 e he
    obtain ⟨-, -, -, -, s1, e1, h5, -, -, h8, -⟩ := hbmem r2 hr2
    rw [h5, Option.mem_some_iff] at hs0
    omega

theorem dispatch_inv_fail {runner : DagNode → Nat → RunnerOutcome} {pg : Nat}
    {dag : List DagNode} {s : SchedState} {nd : DagNode}
    (hn : (dagNames dag).Nodup) (hinv : Inv runner pg dag s)
    (hfound : findReady dag s.statuses = some nd)
    (hfail : (runAttempts runner pg nd 1 nd.retry_attempts s.clock).2.1 = false) :
    Inv runner pg dag (dispatchStep runner pg dag s nd) := by
  obtain ⟨hnd, hpend, hdeps⟩ := findReady_some hfound
  have hinj : ∀ {a b : DagNode}, a ∈ dag → b ∈ dag → a.name = b.name → a = b :=
    fun ha hb he => List.inj_on_of_nodup_map hn ha hb he
  have hselfdep : ∀ d ∈ nd.dependencies, d ≠ nd.name := by
    intro d hd heq
    have hs := hdeps d hd
    rw [heq, hpend] at hs
    cases hs
  have hbmem := ra_mem runner pg nd nd.retry_attempts 1 s.clock
  have hclk := ra_clock_le runner pg nd nd.retry_attempts 1 s.clock
  have hst1nd : updStatus s.statuses nd.name NStatus.failed nd.name = NStatus.failed :=
    updStatus_same _ _ _
  have hst2nd : skipClosure dag (updStatus s.statuses nd.name NStatus.failed) nd.name =
      NStatus.failed := by
    rw [skipClosure_of_ne_pending (by rw [hst1nd]; exact fun h => NStatus.noConfusion h)]
    exact hst1nd
  have hc2 := skipClosure_cases dag (updStatus s.statuses nd.name NStatus.failed)
  have hskipnil : ∀ (m : DagNode), m ∈ dag →
      ¬ (skipClosure dag (updStatus s.statuses nd.name NStatus.failed) m.name =
          NStatus.skipped ∧
        updStatus s.statuses nd.name NStatus.failed m.name ≠ NStatus.skipped) →
      recordsFor m.name
        ((newlySkipped dag (updStatus s.statuses nd.name NStatus.failed)
          (skipClosure dag (updStatus s.statuses nd.name NStatus.failed))).map
            (fun m => skippedRecord pg m.name)) = [] := by
    intro m hm hnot
    apply recordsFor_skips_of_not_mem
    intro mm hmm heq
    obtain ⟨hmm1, hmm2, hmm3⟩ := mem_newlySkipped.mp hmm
    have hmmeq : mm = m := hinj hmm1 hm heq
    subst hmmeq
    exact hnot ⟨hmm2, hmm3⟩
  rw [dispatchStep_fail hfail]
  constructor
  case pendingDeps =>
    intro m hm hp d hd
    dsimp only at hp ⊢
    exact blockedDep_false_iff.mp (skipClosure_noblock hn m hm hp) d hd
  case doneDeps =>
    intro m hm hstat d hd
    dsimp only at hstat ⊢
    have hst1m : updStatus s.statuses nd.name NStatus.failed m.name = NStatus.success ∨
        updStatus s.statuses nd.name NStatus.failed m.name = NStatus.failed := by
      rcases hc2 m.name with heq | ⟨hsk, -⟩
      · rw [heq] at hstat
        exact hstat
      · rw [hsk] at hstat
        rcases hstat with h | h <;> cases h
    have hd2succ : ∀ e : String, updStatus s.statuses nd.name NStatus.failed e =
        NStatus.success →
        skipClosure dag (updStatus s.statuses nd.name NStatus.failed) e =
          NStatus.success := by
      intro e he
      rw [skipClosure_of_ne_pending (by rw [he]; exact fun h => NStatus.noConfusion h)]
      exact he
    by_cases hmn : m.name = nd.name
    · have hmeq : m = nd := hinj hm hnd hmn
      subst hmeq
      apply hd2succ
      rw [updStatus_other _ _ _ (hselfdep d hd)]
      exact hdeps d hd
    · rw [updStatus_other _ _ _ hmn] at hst1m
      have hold := hinv.doneDeps m hm hst1m d hd
      have hdn : d ≠ nd.name := by
        intro heq
        rw [heq, hpend] at hold
        cases hold
      apply hd2succ
      rw [updStatus_other _ _ _ hdn]
      exact hold
  case recShape =>
    intro m hm
    unfold nodeRecInv
    dsimp only
    by_cases hmn : m.name = nd.name
    · have hmeq : m = nd := hinj hm hnd hmn
      subst hmeq
      refine ⟨?_, ?_, ?_, ?_⟩
      · intro h
        rw [hst2nd] at h
        cases h
      · intro h
        rw [hst2nd] at h
        cases h
      · intro _
        refine ⟨s.clock, ?_, hfail, Nat.le_refl _⟩
        rw [recordsFor_append, recordsFor_append, (hinv.recShape m hm).1 hpend,
          recordsFor_eq_self (fun r hr => (hbmem r hr).1),
          hskipnil m hm (by
            intro hcon
            rw [hst2nd] at hcon
            cases hcon.1),
          List.nil_append, List.append_nil]
      · intro h
        rw [hst2nd] at h
        cases h
    · have hrfor : recordsFor m.name
          (runAttempts runner pg nd 1 nd.retry_attempts s.clock).1 = [] :=
        recordsFor_eq_nil (fun r hr heq =>
          hmn (((hbmem r hr).1.symm.trans heq).symm))
      obtain ⟨o1, o2, o3, o4⟩ := hinv.recShape m hm
      have hupd : updStatus s.statuses nd.name NStatus.failed m.name =
          s.statuses m.name := updStatus_other _ _ _ hmn
      refine ⟨?_, ?_, ?_, ?_⟩
      · intro h
        have h1 : s.statuses m.name = NStatus.pending := by
          rw [← hupd]
          exact skipClosure_pending_src h
        rw [recordsFor_append, recordsFor_append, o1 h1, hrfor,
          hskipnil m hm (by
            intro hcon
            rw [h] at hcon
            cases hcon.1),
          List.nil_append, List.append_nil]
      · intro h
        have h1 : s.statuses m.name = NStatus.success := by
          rcases hc2 m.name with heq | ⟨hsk, -⟩
          · rw [← hupd, ← heq]
            exact h
          · rw [hsk] at h
            cases h
        obtain ⟨c0, he, hb, hc⟩ := o2 h1
        refine ⟨c0, ?_, hb, Nat.le_trans hc hclk⟩
        rw [recordsFor_append, recordsFor_append, he, hrfor,
          hskipnil m hm (by
            intro hcon
            rw [h] at hcon
            cases hcon.1),
          List.append_nil, List.append_nil]
      · intro h
        have h1 : s.statuses m.name = NStatus.failed := by
          rcases hc2 m.name with heq | ⟨hsk, -⟩
          · rw [← hupd, ← heq]
            exact h
          · rw [hsk] at h
            cases h
        obtain ⟨c0, he, hb, hc⟩ := o3 h1
        refine ⟨c0, ?_, hb, Nat.le_trans hc hclk⟩
        rw [recordsFor_append, recordsFor_append, he, hrfor,
          hskipnil m hm (by
            intro hcon
            rw [h] at hcon
            cases hcon.1),
          List.append_nil, List.append_nil]
      · intro h
        by_cases hold : updStatus s.statuses nd.name NStatus.failed m.name =
            NStatus.skipped
        · have h1 : s.statuses m.name = NStatus.skipped := by
            rw [← hupd]
            exact hold
          rw [recordsFor_append, recordsFor_append, o4 h1, hrfor,
            hskipnil m hm (fun hcon => hcon.2 hold),
            List.append_nil, List.append_nil]
        · have h1 : s.statuses m.name = NStatus.pending := by
            rcases hc2 m.name with heq | ⟨-, hpd⟩
            · exfalso
              apply hold
              rw [← heq]
              exact h
            · rw [← hupd]
              exact hpd
          rw [recordsFor_append, recordsFor_append, o1 h1, hrfor,
            recordsFor_skips_of_mem (newlySkipped_names_nodup hn)
              (mem_newlySkipped.mpr ⟨hm, h, hold⟩) rfl,
            List.nil_append, List.nil_append]
  case recNames =>
    intro r hr
    dsimp only at hr
    rcases List.mem_append.mp hr with hr | hr
    · rcases List.mem_append.mp hr with hr | hr
      · exact hinv.recNames r hr
      · refine ⟨?_, (hbmem r hr).2.1⟩
        rw [(hbmem r hr).1]
        exact List.mem_map.mpr ⟨nd, hnd, rfl⟩
    · obtain ⟨mm, hmm, rfl⟩ := List.mem_map.mp hr
      exact ⟨List.mem_map.mpr ⟨mm, (mem_newlySkipped.mp hmm).1, rfl⟩, rfl⟩
  case endedLt =>
    intro r hr e he
    dsimp only at hr ⊢
    rcases List.mem_append.mp hr with hr | hr
    · rcases List.mem_append.mp hr with hr | hr
      · exact Nat.lt_of_lt_of_le (hinv.endedLt r hr e he) hclk
      · obtain ⟨-, -, -, -, s0, e1, -, h6, -, -, h9⟩ := hbmem r hr
        rw [h6, Option.mem_some_iff] at he
        exact he ▸ h9
    · obtain ⟨mm, hmm, rfl⟩ := List.mem_map.mp hr
      cases he
  case successRec =>
    intro x hx
    dsimp only at hx ⊢
    have h1 : s.statuses x = NStatus.success := by
      rcases hc2 x with heq | ⟨hsk, -⟩
      · rw [heq] at hx
        by_cases hxn : x = nd.name
        · rw [hxn, hst1nd] at hx
          cases hx
        · rw [updStatus_other _ _ _ hxn] at hx
          exact hx
      · rw [hsk] at hx
        cases hx
    obtain ⟨r, hr, hh1, hh2, hh3⟩ := hinv.successRec x h1
    exact ⟨r, List.mem_append_left _ (List.mem_append_left _ hr), hh1, hh2, hh3⟩
  case dispatchOrder =>
    intro m hm r hr hrname hratt d hd
    dsimp only at hr ⊢
    rcases List.mem_append.mp hr with hr | hr
    · rcases List.mem_append.mp hr with hr | hr
      · obtain ⟨rd, hrd, hh⟩ := hinv.dispatchOrder m hm r hr hrname hratt d hd
        exact ⟨rd, List.mem_append_left _ (List.mem_append_left _ hrd), hh⟩
      · have hmeq : m = nd := hinj hm hnd (by rw [← hrname, (hbmem r hr).1])
        subst hmeq
        have hds := hdeps d hd
        obtain ⟨rd, hrd, hq1, hq2, e, hq3⟩ := hinv.successRec d hds
        have helt := hinv.endedLt rd hrd e (by rw [hq3]; rfl)
        obtain ⟨-, -, -, -, s0, e1, h5, -, -, h8, -⟩ := hbmem r hr
        exact ⟨rd, List.mem_append_left _ (List.mem_append_left _ hrd), hq1, hq2,
          e, s0, hq3, h5, by omega⟩
    · obtain ⟨mm, hmm, rfl⟩ := List.mem_map.mp hr
      cases hratt
  case pairwiseOrder =>
    dsimp only
    rw [List.pairwise_append]
    refine ⟨?_, ?_, ?_⟩
    · rw [List.pairwise_append]
      refine ⟨hinv.pairwiseOrder, ra_pairwise runner pg nd nd.retry_attempts 1 s.clock, ?_⟩
      intro r1 hr1 r2 hr2 e he s0 hs0
      have h1 := hinv.endedLt r1 hr1 e he
      obtain ⟨-, -, -, -, s1, e1, h5, -, -, h8, -⟩ := hbmem r2 hr2
      rw [h5, Option.mem_some_iff] at hs0
      omega
    · apply pairwise_of_left
      intro a ha b
      obtain ⟨mm, hmm, rfl⟩ := List.mem_map.mp ha
      intro e he
      cases he
    · intro a ha b hb e he s0 hs0
      obtain ⟨mm, hmm, rfl⟩ := List.mem_map.mp hb
      cases hs0

theorem schedLoop_zero (runner : DagNode → Nat → RunnerOutcome) (pg : Nat)
    (dag : List DagNode) (s : SchedState) : schedLoop runner pg dag 0 s = s := rfl

theorem schedLoop_succ_none {runner : DagNode → Nat → RunnerOutcome} {pg : Nat}
    {dag : List DagNode} {s : SchedState} {fuel : Nat}
    (h : findReady dag s.statuses = none) :
    schedLoop runner pg dag (fuel + 1) s = s := by
  simp only [schedLoop, h]

theorem schedLoop_succ_some {runner : DagNode → Nat → RunnerOutcome} {pg : Nat}
    {dag : List DagNode} {s : SchedState} {fuel : Nat} {nd : DagNode}
    (h : findReady dag s.statuses = some nd) :
    schedLoop runner pg dag (fuel + 1) s =
      schedLoop runner pg dag fuel (dispatchStep runner pg dag s nd) := by
  simp only [schedLoop, h]

theorem dispatch_inv {runner : DagNode → Nat → RunnerOutcome} {pg : Nat}
    {dag : List DagNode} {s : SchedState} {nd : DagNode}
    (hn : (dagNames dag).Nodup) (hinv : Inv runner pg dag s)
    (hfound : findReady dag s.statuses = some nd) :
    Inv runner pg dag (dispatchStep runner pg dag s nd) := by
  cases hok : (runAttempts runner pg nd 1 nd.retry_attempts s.clock).2.1 with
  | true => exact dispatch_inv_ok hn hinv hfound hok
  | false => exact dispatch_inv_fail hn hinv hfound hok

theorem schedLoop_inv {runner : DagNode → Nat → RunnerOutcome} {pg : Nat}
    {dag : List DagNode} (hn : (dagNames dag).Nodup) :
    ∀ (fuel : Nat) (s : SchedState), Inv runner pg dag s →
      Inv runner pg dag (schedLoop runner pg dag fuel s) := by
  intro fuel
  induction fuel with
  | zero => intro s hinv; exact hinv
  | succ fuel ih =>
    intro s hinv
    cases hf : findReady dag s.statuses with
    | none =>
      rw [schedLoop_succ_none hf]
      exact hinv
    | some nd =>
      rw [schedLoop_succ_some hf]
      exact ih _ (dispatch_inv hn hinv hf)

theorem schedLoop_append (runner : DagNode → Nat → RunnerOutcome) (pg : Nat)
    (dag : List DagNode) :
    ∀ (fuel : Nat) (s : SchedState),
      ∃ t, (schedLoop runner pg dag fuel s).records = s.records ++ t := by
  intro fuel
  induction fuel with
  | zero => intro s; exact ⟨[], (List.append_nil _).symm⟩
  | succ fuel ih =>
    intro s
    cases hf : findReady dag s.statuses with
    | none =>
      rw [schedLoop_succ_none hf]
      exact ⟨[], (List.append_nil _).symm⟩
    | some nd =>
      rw [schedLoop_succ_some hf]
      have hstep : ∃ u, (dispatchStep runner pg dag s nd).records = s.records ++ u := by
        cases hok : (runAttempts runner pg nd 1 nd.retry_attempts s.clock).2.1 with
        | true =>
          rw [dispatchStep_ok hok]
          exact ⟨_, rfl⟩
        | false =>
          rw [dispatchStep_fail hok]
          exact ⟨_, List.append_assoc ..⟩
      obtain ⟨u, hu⟩ := hstep
      obtain ⟨t, ht⟩ := ih (dispatchStep runner pg dag s nd)
      exact ⟨u ++ t, by rw [ht, hu, List.append_assoc]⟩

theorem dispatch_countPend {runner : DagNode → Nat → RunnerOutcome} {pg : Nat}
    {dag : List DagNode} {s : SchedState} {nd : DagNode}
    (hfound : findReady dag s.statuses = some nd) :
    countPend dag (dispatchStep runner pg dag s nd).statuses <
      countPend dag s.statuses := by
  obtain ⟨hnd, hpend, -⟩ := findReady_some hfound
  have hpoint : ∀ x, (dispatchStep runner pg dag s nd).statuses x = NStatus.pending →
      s.statuses x = NStatus.pending := by
    intro x hx
    cases hok : (runAttempts runner pg nd 1 nd.retry_attempts s.clock).2.1 with
    | true =>
      rw [dispatchStep_ok hok] at hx
      dsimp only at hx
      by_cases hxn : x = nd.name
      · rw [hxn, updStatus_same] at hx
        cases hx
      · rw [updStatus_other _ _ _ hxn] at hx
        exact hx
    | false =>
      rw [dispatchStep_fail hok] at hx
      dsimp only at hx
      have h1 := skipClosure_pending_src hx
      by_cases hxn : x = nd.name
      · rw [hxn, updStatus_same] at h1
        cases h1
      · rw [updStatus_other _ _ _ hxn] at h1
        exact h1
  have hterm : (dispatchStep runner pg dag s nd).statuses nd.name ≠ NStatus.pending := by
    cases hok : (runAttempts runner pg nd 1 nd.retry_attempts s.clock).2.1 with
    | true =>
      rw [dispatchStep_ok hok]
      dsimp only
      rw [updStatus_same]
      exact fun h => NStatus.noConfusion h
    | false =>
      rw [dispatchStep_fail hok]
      dsimp only
      rw [skipClosure_of_ne_pending (by
        rw [updStatus_same]
        exact fun h => NStatus.noConfusion h), updStatus_same]
      exact fun h => NStatus.noConfusion h
  unfold countPend
  apply filter_length_lt _ _ dag
    (fun x _ hq => beq_iff_eq.mpr (hpoint x.name (beq_iff_eq.mp hq))) nd hnd
  · exact beq_iff_eq.mpr hpend
  · rw [beq_eq_false_iff_ne]
    exact hterm

theorem schedLoop_term {runner : DagNode → Nat → RunnerOutcome} {pg : Nat}
    {dag : List DagNode} :
    ∀ (fuel : Nat) (s : SchedState), countPend dag s.statuses ≤ fuel →
      findReady dag (schedLoop runner pg dag fuel s).statuses = none := by
  intro fuel
  induction fuel with
  | zero =>
    intro s hc
    show findReady dag s.statuses = none
    unfold findReady
    rw [List.find?_eq_none]
    intro nd hnd hready
    unfold readyNode at hready
    rw [Bool.and_eq_true] at hready
    have hin : nd ∈ dag.filter (fun nd => s.statuses nd.name == NStatus.pending) :=
      List.mem_filter.mpr ⟨hnd, hready.1⟩
    have hlen := List.length_pos.mpr (List.ne_nil_of_mem hin)
    unfold countPend at hc
    omega
  | succ fuel ih =>
    intro s hc
    cases hf : findReady dag s.statuses with
    | none =>
      rw [schedLoop_succ_none hf]
      exact hf
    | some nd =>
      rw [schedLoop_succ_some hf]
      apply ih
      have hlt : countPend dag (dispatchStep runner pg dag s nd).statuses <
          countPend dag s.statuses := dispatch_countPend hf
      omega

theorem nextIn_step {dag : List DagNode} {P : List String}
    (hn : (dagNames dag).Nodup)
    (hstep : ∀ x ∈ P, ∃ nd ∈ dag, nd.name = x ∧ ∃ d ∈ nd.dependencies, d ∈ P) :
    ∀ y ∈ P, depRel dag y (nextIn dag P y) ∧ nextIn dag P y ∈ P := by
  intro y hy
  obtain ⟨nd, hnd, hname, d, hd, hds⟩ := hstep y hy
  have hdeps : depsOfName dag y = nd.dependencies := hname ▸ depsOfName_eq hn hnd
  have hsome : ((depsOfName dag y).find? (fun d => P.contains d)).isSome = true := by
    rw [List.find?_isSome]
    exact ⟨d, hdeps ▸ hd, contains_iff.mpr hds⟩
  obtain ⟨d0, hd0⟩ := Option.isSome_iff_exists.mp hsome
  have hd0P : d0 ∈ P := contains_iff.mp (List.find?_some hd0)
  have hd0dep : d0 ∈ nd.dependencies := hdeps ▸ List.mem_of_find?_eq_some hd0
  have hnext : nextIn dag P y = d0 := by
    unfold nextIn
    rw [hd0]
    rfl
  rw [hnext]
  exact ⟨⟨nd, hnd, hname, hd0dep⟩, hd0P⟩

theorem hasCycle_of_closed_step {dag : List DagNode} {P : List String}
    (hn : (dagNames dag).Nodup)
    (hstep : ∀ x ∈ P, ∃ nd ∈ dag, nd.name = x ∧ ∃ d ∈ nd.dependencies, d ∈ P)
    {x0 : String} (hx0 : x0 ∈ P) : HasCycle dag := by
  obtain ⟨c, -, hcyc⟩ := findRepeat_spec (nextIn_step hn hstep) (P.length + 1) x0 []
    hx0 (fun y hy => absurd hy (List.not_mem_nil y)) List.nodup_nil
    (List.chain'_singleton x0) (by simp)
  exact cycleList_hasCycle hcyc

theorem no_pending_of_findReady_none {runner : DagNode → Nat → RunnerOutcome}
    {pg : Nat} {dag : List DagNode} {s : SchedState}
    (hn : (dagNames dag).Nodup) (hc : Closed dag) (hacyc : ¬ HasCycle dag)
    (hinv : Inv runner pg dag s) (hfr : findReady dag s.statuses = none) :
    ∀ nd ∈ dag, s.statuses nd.name ≠ NStatus.pending := by
  intro nd0 hnd0 hp0
  have hx0 : nd0.name ∈ (dagNames dag).filter
      (fun x => s.statuses x == NStatus.pending) :=
    List.mem_filter.mpr ⟨List.mem_map.mpr ⟨nd0, hnd0, rfl⟩, beq_iff_eq.mpr hp0⟩
  have hstep : ∀ x ∈ (dagNames dag).filter (fun x => s.statuses x == NStatus.pending),
      ∃ nd ∈ dag, nd.name = x ∧ ∃ d ∈ nd.dependencies,
        d ∈ (dagNames dag).filter (fun x => s.statuses x == NStatus.pending) := by
    intro x hx
    obtain ⟨hxn, hxp⟩ := List.mem_filter.mp hx
    have hxpend := beq_iff_eq.mp hxp
    obtain ⟨m, hm, hmname⟩ := List.mem_map.mp hxn
    obtain ⟨d, hd, hdns⟩ := findReady_none hfr m hm (by rw [hmname]; exact hxpend)
    have hnb := hinv.pendingDeps m hm (by rw [hmname]; exact hxpend) d hd
    have hdp : s.statuses d = NStatus.pending := by
      cases hsd : s.statuses d with
      | pending => rfl
      | success => exact absurd hsd hdns
      | failed => exact absurd hsd hnb.1
      | skipped => exact absurd hsd hnb.2
    exact ⟨m, hm, hmname, d, hd,
      List.mem_filter.mpr ⟨hc m hm d hd, beq_iff_eq.mpr hdp⟩⟩
  exact hacyc (hasCycle_of_closed_step hn hstep hx0)

theorem run_inv {runner : DagNode → Nat → RunnerOutcome} {pg : Nat}
    {dag : List DagNode} (hn : (dagNames dag).Nodup) :
    Inv runner pg dag (schedLoop runner pg dag dag.length initState) :=
  schedLoop_inv hn dag.length initState (init_inv runner pg dag)

theorem run_findReady_none (runner : DagNode → Nat → RunnerOutcome) (pg : Nat)
    (dag : List DagNode) :
    findReady dag (schedLoop runner pg dag dag.length initState).statuses = none :=
  schedLoop_term dag.length initState (List.length_filter_le _ _)

theorem run_no_pending {runner : DagNode → Nat → RunnerOutcome} {pg : Nat}
    {dag : List DagNode}
    (hn : (dagNames dag).Nodup) (hc : Closed dag) (hacyc : ¬ HasCycle dag) :
    ∀ nd ∈ dag, (run runner pg dag).1 nd.name ≠ NStatus.pending :=
  no_pending_of_findReady_none hn hc hacyc (run_inv hn)
    (run_findReady_none runner pg dag)

theorem attemptRecordsFor_eq (n : String) (l : List ExecutionRecord) :
    attemptRecordsFor n l = (recordsFor n l).filter (fun r => r.attempt_number != 0) := by
  unfold attemptRecordsFor recordsFor
  rw [List.filter_filter]
  exact List.filter_congr (fun a _ => Bool.and_comm ..)

/-- Edge set of a graph: one pair per direct dependency. -/
def edgeList (g : List DagNode) : List (String × String) :=
  g.flatMap (fun nd => nd.dependencies.map (fun d => (nd.name, d)))

/-- Shallow embedding of the OrchestrationManager collaborator held by the
    facade; its three orchestration operations have abstract behavior, given
    as functions from the argument tuples to a result or a raised error. -/
structure OrchestrationManager (Cfg LoadRes Dg ExecRes LogRes : Type) where
  load_orchestration_config :
    String → Cfg → String → Option String → Except BuildError LoadRes
  build_dag : String → Nat → String → Option String → Except BuildError Dg
  log_orchestration_execution :
    String → ExecRes → String → Option String → Except BuildError LogRes

/-- Shallow embedding of the LucidUtils facade object of
    src/lucid_control_framework/utils.py, which holds the orchestration
    manager as an instance field. -/
structure LucidUtils (Cfg LoadRes Dg ExecRes LogRes : Type) where
  orchestration_manager : OrchestrationManager Cfg LoadRes Dg ExecRes LogRes

/-- Embedded from the source (utils.py lines 483 to 523): the facade logs an
    info message and returns the result of delegating to the orchestration
    manager, passing the arguments through unchanged and in order; it has no
    exception handling, so an error outcome is returned as is. -/
def LucidUtils.load_orchestration_config {Cfg LoadRes Dg ExecRes LogRes : Type}
    (self : LucidUtils Cfg LoadRes Dg ExecRes LogRes)
    (control_table_name : String) (orchestration_config : Cfg)
    (write_method : String) (control_storage_container_endpoint : Option String) :
    List String × Except BuildError LoadRes :=
  (["Loading orchestration configuration"],
   self.orchestration_manager.load_orchestration_config control_table_name
     orchestration_config write_method control_storage_container_endpoint)

/-- Embedded from the source (utils.py lines 525 to 546): the facade logs an
    info message and returns the result of delegating build_dag to the
    orchestration manager with the arguments in order. -/
def LucidUtils.build_dag {Cfg LoadRes Dg ExecRes LogRes : Type}
    (self : LucidUtils Cfg LoadRes Dg ExecRes LogRes)
    (control_table_name : String) (process_group : Nat)
    (write_method : String) (control_storage_container_endpoint : Option String) :
    List String × Except BuildError Dg :=
  (["Building DAG"],
   self.orchestration_manager.build_dag control_table_name process_group
     write_method control_storage_container_endpoint)

/-- Embedded from the source (utils.py lines 548 to 567): the facade logs an
    info message and returns the result of delegating to the orchestration
    manager with the arguments in order. -/
def LucidUtils.log_orchestration_execution {Cfg LoadRes Dg ExecRes LogRes : Type}
    (self : LucidUtils Cfg LoadRes Dg ExecRes LogRes)
    (log_table_name : String) (execution_results : ExecRes)
    (write_method : String) (control_storage_container_endpoint : Option String) :
    List String × Except BuildError LogRes :=
  (["Logging orchestration execution"],
   self.orchestration_manager.log_orchestration_execution log_table_name
     execution_results write_method control_storage_container_endpoint)

instance (dag : List DagNode) (x y : String) : Decidable (depRel dag x y) := by
  unfold depRel
  infer_instance

instance (dag : List DagNode) : Decidable (Closed dag) := by
  unfold Closed
  infer_instance

theorem ra_attempt_pos {runner : DagNode → Nat → RunnerOutcome} {pg : Nat}
    {nd : DagNode} {rem k c : Nat} {r : ExecutionRecord}
    (hr : r ∈ (runAttempts runner pg nd k rem c).1) : k ≤ r.attempt_number := by
  have hmap := ra_attempt_numbers runner pg nd rem k c
  have hmem : r.attempt_number ∈
      ((runAttempts runner pg nd k rem c).1).map (fun r => r.attempt_number) :=
    List.mem_map.mpr ⟨r, hr, rfl⟩
  rw [hmap] at hmem
  exact (List.mem_range'_1.mp hmem).1

theorem run_record_cases {runner : DagNode → Nat → RunnerOutcome} {pg : Nat}
    {dag : List DagNode} (hn : (dagNames dag).Nodup) :
    ∀ r ∈ (schedLoop runner pg dag dag.length initState).records,
      (∃ nd c0, nd ∈ dag ∧ r ∈ (runAttempts runner pg nd 1 nd.retry_attempts c0).1) ∨
      (∃ n, r = skippedRecord pg n) := by
  intro r hr
  have hinv : Inv runner pg dag (schedLoop runner pg dag dag.length initState) :=
    run_inv hn
  obtain ⟨hname, -⟩ := hinv.recNames r hr
  obtain ⟨nd, hnd, hndname⟩ := List.mem_map.mp hname
  have hrin : r ∈ recordsFor nd.name
      (schedLoop runner pg dag dag.length initState).records := by
    unfold recordsFor
    exact List.mem_filter.mpr ⟨hr, beq_iff_eq.mpr hndname.symm⟩
  obtain ⟨o1, o2, o3, o4⟩ := hinv.recShape nd hnd
  cases hst : (schedLoop runner pg dag dag.length initState).statuses nd.name with
  | pending =>
    rw [o1 hst] at hrin
    cases hrin
  | success =>
    obtain ⟨c0, he, -, -⟩ := o2 hst
    rw [he] at hrin
    exact Or.inl ⟨nd, c0, hnd, hrin⟩
  | failed =>
    obtain ⟨c0, he, -, -⟩ := o3 hst
    rw [he] at hrin
    exact Or.inl ⟨nd, c0, hnd, hrin⟩
  | skipped =>
    rw [o4 hst] at hrin
    exact Or.inr ⟨nd.name, List.mem_singleton.mp hrin⟩

def exDef (n : String) (deps : List String) (retries : Nat) : WorkUnitDefinition :=
  ⟨n, "ref:" ++ n, deps, [("p", "v")], 60, retries, 0, true, 1⟩

def alwaysFailRunner : DagNode → Nat → RunnerOutcome :=
  fun _ _ => RunnerOutcome.failure "boom"

def alwaysOkRunner : DagNode → Nat → RunnerOutcome :=
  fun _ _ => RunnerOutcome.success

def defsC1 : List WorkUnitDefinition :=
  [exDef "A" ["B"] 1, exDef "B" ["A"] 1, exDef "C" ["Z"] 1]

def defsW1 : List WorkUnitDefinition := [exDef "A" ["B"] 1, exDef "B" ["A"] 1]

def defsC2 : List WorkUnitDefinition := [exDef "A" ["Z"] 1]

def defsW2 : List WorkUnitDefinition := [exDef "A" [] 1, exDef "B" ["A"] 1]

def defsC3 : List WorkUnitDefinition := [exDef "A" [] 1, exDef "X" ["A"] 1]

def defsW3 : List WorkUnitDefinition := [exDef "X" [] 2]

def defsW4 : List WorkUnitDefinition := [exDef "D" [] 1, exDef "E" ["D"] 1]

def defsC5 : List WorkUnitDefinition :=
  [exDef "A" [] 1, exDef "A" [] 1, exDef "C" ["Z"] 1]

def defsW5 : List WorkUnitDefinition := [exDef "A" ["Z"] 1]

def defsW6 : List WorkUnitDefinition :=
  [exDef "A" [] 1, exDef "B" ["A"] 2, exDef "C" ["B"] 1]

def defsW7 : List WorkUnitDefinition := [exDef "F" [] 1, exDef "G" ["F"] 1]

def defsW8 : List WorkUnitDefinition := [exDef "H" [] 1, exDef "K" ["H"] 2]

/-- Claim C1 counterexample: a definition set whose active nodes contain a
    dependency cycle (A and B depend on each other) but also hold an
    unresolved dependency; build fails with UnknownDependencyError, not with
    DependencyCycleError, refuting the claim as universally stated. -/
theorem c1_counterexample :
    HasCycle (activeDag defsC1 1) ∧
    (∀ c, build defsC1 1 ≠ Except.error (BuildError.dependencyCycleError c)) := by
  constructor
  · exact ⟨"A", @Relation.TransGen.head String (depRel (activeDag defsC1 1)) "A" "B" "A"
      (by decide) (Relation.TransGen.single (by decide))⟩
  · intro c hc
    have hb : build defsC1 1 =
        Except.error (BuildError.unknownDependencyError "C" "Z") := rfl
    rw [hb] at hc
    exact BuildError.noConfusion (Except.error.inj hc)

/-- Claim C1 (amended): for every definition set whose active nodes have
    unique names and fully resolvable dependencies and contain a dependency
    cycle, build fails with DependencyCycleError whose payload is a genuine
    full cycle of node names, no graph is produced, and the scheduler never
    dispatches: the pipeline produces zero ExecutionRecords for any runner. -/
theorem c1_theorem (runner : DagNode → Nat → RunnerOutcome)
    {defs : List WorkUnitDefinition} {pg : Nat}
    (hnodup : (dagNames (activeDag defs pg)).Nodup)
    (hclosed : Closed (activeDag defs pg))
    (hcycle : HasCycle (activeDag defs pg)) :
    ∃ c, build defs pg = Except.error (BuildError.dependencyCycleError c) ∧
      IsCycleList (activeDag defs pg) c ∧
      (∀ g, build defs pg ≠ Except.ok g) ∧
      pipelineRecords runner defs pg = [] := by
  obtain ⟨c, hb, hcl⟩ := build_cycle_elim hnodup hclosed hcycle
  refine ⟨c, hb, hcl, ?_, ?_⟩
  · intro g hg
    rw [hb] at hg
    cases hg
  · unfold pipelineRecords buildAndRun
    rw [hb]

/-- Claim C1 witness: on the concrete two-node cycle A and B, the amended
    theorem applies and yields the DependencyCycleError outcome. -/
theorem c1_witness :
    ∃ c, build defsW1 1 = Except.error (BuildError.dependencyCycleError c) ∧
      IsCycleList (activeDag defsW1 1) c ∧
      (∀ g, build defsW1 1 ≠ Except.ok g) ∧
      pipelineRecords alwaysOkRunner defsW1 1 = [] := by
  have hcy : HasCycle (activeDag defsW1 1) :=
    ⟨"A", @Relation.TransGen.head String (depRel (activeDag defsW1 1)) "A" "B" "A"
      (by decide) (Relation.TransGen.single (by decide))⟩
  exact c1_theorem alwaysOkRunner (by decide) (by decide) hcy

/-- Claim C2 counterexample: a definition set that is acyclic among active
    nodes but has an unresolved dependency; build fails, refuting the claim
    that acyclicity alone guarantees success. -/
theorem c2_counterexample :
    ¬ HasCycle (activeDag defsC2 1) ∧ (∀ g, build defsC2 1 ≠ Except.ok g) := by
  constructor
  · rintro ⟨x, htg⟩
    have hstep : ∀ a b, depRel (activeDag defsC2 1) a b → a = "A" ∧ b = "Z" := by
      rintro a b ⟨nd, hnd, hname, hdep⟩
      have hlist : activeDag defsC2 1 = [toDagNode (exDef "A" ["Z"] 1)] := rfl
      rw [hlist] at hnd
      rcases List.mem_singleton.mp hnd with rfl
      exact ⟨hname.symm, List.mem_singleton.mp hdep⟩
    rw [Relation.TransGen.head'_iff] at htg
    obtain ⟨y, hxy, hyx⟩ := htg
    obtain ⟨hxA, hyZ⟩ := hstep x y hxy
    subst hxA
    subst hyZ
    rcases Relation.ReflTransGen.cases_head hyx with heq | ⟨w, hzw, -⟩
    · exact absurd heq (by decide)
    · exact absurd (hstep _ _ hzw).1 (by decide)
  · intro g hg
    have hb : build defsC2 1 =
        Except.error (BuildError.unknownDependencyError "A" "Z") := rfl
    rw [hb] at hg
    cases hg

/-- Claim C2 (amended): for every definition set whose active nodes have
    unique names, fully resolvable dependencies, and an acyclic dependency
    relation, build succeeds with the active graph, and in every run of that
    graph a node is dispatched only after all of its direct prerequisites
    have reached terminal success: every attempt record of the node starts
    strictly after a success record of each prerequisite has ended. -/
theorem c2_theorem {defs : List WorkUnitDefinition} {pg : Nat}
    (hnodup : (dagNames (activeDag defs pg)).Nodup)
    (hclosed : Closed (activeDag defs pg))
    (hacyc : ¬ HasCycle (activeDag defs pg)) :
    build defs pg = Except.ok (activeDag defs pg) ∧
    ∀ (runner : DagNode → Nat → RunnerOutcome), ∀ nd ∈ activeDag defs pg,
      ∀ r ∈ (run runner pg (activeDag defs pg)).2, r.node_name = nd.name →
        1 ≤ r.attempt_number → ∀ d ∈ nd.dependencies,
          ∃ rd ∈ (run runner pg (activeDag defs pg)).2,
            rd.node_name = d ∧ rd.status = RStatus.success ∧
            ∃ e s0, rd.ended_at = some e ∧ r.started_at = some s0 ∧ e < s0 := by
  refine ⟨build_ok_of hnodup hclosed hacyc, ?_⟩
  intro runner nd hnd r hr hname hatt d hd
  exact (run_inv hnodup).dispatchOrder nd hnd r hr hname hatt d hd

/-- Claim C2 witness: the amended theorem applied to the concrete acyclic
    set with B depending on A. -/
theorem c2_witness :
    build defsW2 1 = Except.ok (activeDag defsW2 1) := by
  exact (c2_theorem (by decide) (by decide)
    (not_hasCycle_of_stuck_nil (by decide) (by decide))).1

/-- Claim C3 counterexample: node X with retry_attempts one and an
    always-failing runner, but X depends on A which fails first; X ends
    skipped with zero attempt-level records rather than failed with one
    record, refuting the claim as universally stated. -/
theorem c3_counterexample :
    (∃ nd ∈ activeDag defsC3 1, nd.name = "X" ∧ nd.retry_attempts = 1 ∧
      alwaysFails alwaysFailRunner nd) ∧
    (run alwaysFailRunner 1 (activeDag defsC3 1)).1 "X" = NStatus.skipped ∧
    attemptRecordsFor "X" (run alwaysFailRunner 1 (activeDag defsC3 1)).2 = [] := by
  refine ⟨⟨toDagNode (exDef "X" ["A"] 1), by decide, rfl, rfl,
    fun k h => RunnerOutcome.noConfusion h⟩, by decide, by decide⟩

/-- Claim C3 (amended): for every node of a successfully built graph with
    retry_attempts N whose runner never reports success, either the node is
    skipped because of an upstream failure, with zero attempt-level records,
    or the run produces exactly N attempt-level records for it, with statuses
    failed or timeout and attempt numbers exactly one up to N in increasing
    order, and the node ends failed. -/
theorem c3_theorem {defs : List WorkUnitDefinition} {pg : Nat} {dag : List DagNode}
    {runner : DagNode → Nat → RunnerOutcome} {nd : DagNode} {N : Nat}
    (hb : build defs pg = Except.ok dag) (hnd : nd ∈ dag)
    (hretry : nd.retry_attempts = N) (hfail : alwaysFails runner nd) :
    ((run runner pg dag).1 nd.name = NStatus.skipped ∧
      attemptRecordsFor nd.name (run runner pg dag).2 = []) ∨
    ((run runner pg dag).1 nd.name = NStatus.failed ∧
      (recordsFor nd.name (run runner pg dag).2).length = N ∧
      (recordsFor nd.name (run runner pg dag).2).map (fun r => r.attempt_number) =
        List.range' 1 N ∧
      ∀ r ∈ recordsFor nd.name (run runner pg dag).2,
        r.status = RStatus.failed ∨ r.status = RStatus.timeout) := by
  obtain ⟨-, hnodup, hclosed, hacyc⟩ := build_ok_elim hb
  have hinv : Inv runner pg dag (schedLoop runner pg dag dag.length initState) :=
    run_inv hnodup
  have hterm : (run runner pg dag).1 nd.name ≠ NStatus.pending :=
    run_no_pending hnodup hclosed hacyc nd hnd
  obtain ⟨o1, o2, o3, o4⟩ := hinv.recShape nd hnd
  cases hst : (run runner pg dag).1 nd.name with
  | pending => exact absurd hst hterm
  | success =>
    exfalso
    obtain ⟨c0, -, hb2, -⟩ := o2 hst
    have hf := (ra_alwaysFails runner pg nd hfail nd.retry_attempts 1 c0).1
    rw [hf] at hb2
    cases hb2
  | failed =>
    right
    obtain ⟨c0, hrec, -, -⟩ := o3 hst
    obtain ⟨-, hlen, hstat⟩ := ra_alwaysFails runner pg nd hfail nd.retry_attempts 1 c0
    refine ⟨rfl, ?_, ?_, ?_⟩
    · show (recordsFor nd.name
        (schedLoop runner pg dag dag.length initState).records).length = N
      rw [hrec, hlen]
      exact hretry
    · show (recordsFor nd.name
        (schedLoop runner pg dag dag.length initState).records).map
          (fun r => r.attempt_number) = List.range' 1 N
      rw [hrec, ra_attempt_numbers runner pg nd nd.retry_attempts 1 c0, hlen, hretry]
    · intro r hr
      rw [show recordsFor nd.name (run runner pg dag).2 = recordsFor nd.name
        (schedLoop runner pg dag dag.length initState).records from rfl, hrec] at hr
      exact hstat r hr
  | skipped =>
    left
    refine ⟨rfl, ?_⟩
    have hrec := o4 hst
    show attemptRecordsFor nd.name
      (schedLoop runner pg dag dag.length initState).records = []
    rw [attemptRecordsFor_eq, hrec]
    rfl

/-- Claim C3 witness: single node X with retry_attempts two and an
    always-failing runner; the amended theorem applies. -/
theorem c3_witness :
    ((run alwaysFailRunner 1 (activeDag defsW3 1)).1 "X" = NStatus.skipped ∧
      attemptRecordsFor "X" (run alwaysFailRunner 1 (activeDag defsW3 1)).2 = []) ∨
    ((run alwaysFailRunner 1 (activeDag defsW3 1)).1 "X" = NStatus.failed ∧
      (recordsFor "X" (run alwaysFailRunner 1 (activeDag defsW3 1)).2).length = 2 ∧
      (recordsFor "X" (run alwaysFailRunner 1 (activeDag defsW3 1)).2).map
        (fun r => r.attempt_number) = List.range' 1 2 ∧
      ∀ r ∈ recordsFor "X" (run alwaysFailRunner 1 (activeDag defsW3 1)).2,
        r.status = RStatus.failed ∨ r.status = RStatus.timeout) := by
  exact @c3_theorem defsW3 1 (activeDag defsW3 1) alwaysFailRunner
    (toDagNode (exDef "X" [] 2)) 2 rfl (by decide) rfl
    (fun k h => RunnerOutcome.noConfusion h)

/-- Claim C4: in every run of a successfully built graph, if node A ends
    failed and node B depends on A directly or transitively, then B ends
    skipped, B is never dispatched (no attempt-level record exists for B),
    and the only record logged for B is its skip record. -/
theorem c4_theorem {defs : List WorkUnitDefinition} {pg : Nat} {dag : List DagNode}
    {runner : DagNode → Nat → RunnerOutcome} {A B : DagNode}
    (hb : build defs pg = Except.ok dag) (_hA : A ∈ dag) (hB : B ∈ dag)
    (hAfail : (run runner pg dag).1 A.name = NStatus.failed)
    (hdep : Relation.TransGen (depRel dag) B.name A.name) :
    (run runner pg dag).1 B.name = NStatus.skipped ∧
    attemptRecordsFor B.name (run runner pg dag).2 = [] ∧
    recordsFor B.name (run runner pg dag).2 = [skippedRecord pg B.name] := by
  obtain ⟨-, hnodup, hclosed, hacyc⟩ := build_ok_elim hb
  have hinv : Inv runner pg dag (schedLoop runner pg dag dag.length initState) :=
    run_inv hnodup
  have hterm : (run runner pg dag).1 B.name ≠ NStatus.pending :=
    run_no_pending hnodup hclosed hacyc B hB
  have hstep : ∀ x y, depRel dag x y →
      ((run runner pg dag).1 x = NStatus.success ∨
        (run runner pg dag).1 x = NStatus.failed) →
      (run runner pg dag).1 y = NStatus.success := by
    rintro x y ⟨nd2, hnd2, rfl, hy⟩ hst
    exact hinv.doneDeps nd2 hnd2 hst y hy
  have htg : ∀ {x z : String}, Relation.TransGen (depRel dag) x z →
      ((run runner pg dag).1 x = NStatus.success ∨
        (run runner pg dag).1 x = NStatus.failed) →
      (run runner pg dag).1 z = NStatus.success := by
    intro x z htg0
    induction htg0 with
    | single h => intro hst; exact hstep _ _ h hst
    | tail htg2 hstep2 ih =>
      intro hst
      exact hstep _ _ hstep2 (Or.inl (ih hst))
  cases hstB : (run runner pg dag).1 B.name with
  | pending => exact absurd hstB hterm
  | success =>
    exfalso
    have hsu := htg hdep (Or.inl hstB)
    rw [hAfail] at hsu
    cases hsu
  | failed =>
    exfalso
    have hsu := htg hdep (Or.inr hstB)
    rw [hAfail] at hsu
    cases hsu
  | skipped =>
    have hrec := (hinv.recShape B hB).2.2.2 hstB
    refine ⟨rfl, ?_, hrec⟩
    show attemptRecordsFor B.name
      (schedLoop runner pg dag dag.length initState).records = []
    rw [attemptRecordsFor_eq, hrec]
    rfl

/-- Claim C4 witness: E depends on D, D fails on its only attempt, E ends
    skipped with only its skip record. -/
theorem c4_witness :
    (run alwaysFailRunner 1 (activeDag defsW4 1)).1 "E" = NStatus.skipped ∧
    attemptRecordsFor "E" (run alwaysFailRunner 1 (activeDag defsW4 1)).2 = [] ∧
    recordsFor "E" (run alwaysFailRunner 1 (activeDag defsW4 1)).2 =
      [skippedRecord 1 "E"] := by
  exact @c4_theorem defsW4 1 (activeDag defsW4 1) alwaysFailRunner
    (toDagNode (exDef "D" [] 1)) (toDagNode (exDef "E" ["D"] 1)) rfl
    (by decide) (by decide) (by decide) (Relation.TransGen.single (by decide))

/-- Claim C5 counterexample: a definition set with a duplicated active node
    name and an unresolved dependency; build fails with ConfigError, not with
    UnknownDependencyError, refuting the claim as universally stated. -/
theorem c5_counterexample :
    (∃ nd ∈ activeDag defsC5 1, ∃ d ∈ nd.dependencies,
      d ∉ dagNames (activeDag defsC5 1)) ∧
    (∀ n d, build defsC5 1 ≠ Except.error (BuildError.unknownDependencyError n d)) := by
  constructor
  · exact ⟨toDagNode (exDef "C" ["Z"] 1), by decide, "Z", by decide, by decide⟩
  · intro n d hc
    have hb : build defsC5 1 = Except.error (BuildError.configError "A") := rfl
    rw [hb] at hc
    exact BuildError.noConfusion (Except.error.inj hc)

/-- Claim C5 (amended): for every definition set whose active node names are
    unique and in which some active node has a dependency that names a node
    missing or inactive in the process group, build fails fast with
    UnknownDependencyError naming an offending node and dependency, and no
    graph is returned. -/
theorem c5_theorem {defs : List WorkUnitDefinition} {pg : Nat}
    (hnodup : (dagNames (activeDag defs pg)).Nodup)
    (hoff : ∃ nd ∈ activeDag defs pg, ∃ d ∈ nd.dependencies,
      d ∉ dagNames (activeDag defs pg)) :
    ∃ n d, build defs pg = Except.error (BuildError.unknownDependencyError n d) ∧
      (∃ nd ∈ activeDag defs pg, nd.name = n ∧ d ∈ nd.dependencies ∧
        d ∉ dagNames (activeDag defs pg)) ∧
      ∀ g, build defs pg ≠ Except.ok g := by
  have hnc : ¬ Closed (activeDag defs pg) := by
    obtain ⟨nd, hnd, d, hd, hnm⟩ := hoff
    intro hc
    exact hnm (hc nd hnd d hd)
  obtain ⟨n, d, hbe, hw⟩ := build_unknown_elim hnodup hnc
  refine ⟨n, d, hbe, hw, ?_⟩
  intro g hg
  rw [hbe] at hg
  cases hg

/-- Claim C5 witness: single node A with unresolved dependency Z. -/
theorem c5_witness :
    ∃ n d, build defsW5 1 = Except.error (BuildError.unknownDependencyError n d) ∧
      (∃ nd ∈ activeDag defsW5 1, nd.name = n ∧ d ∈ nd.dependencies ∧
        d ∉ dagNames (activeDag defsW5 1)) ∧
      ∀ g, build defsW5 1 ≠ Except.ok g := by
  exact c5_theorem (by decide) ⟨toDagNode (exDef "A" ["Z"] 1), by decide, "Z",
    by decide, by decide⟩

/-- Claim C6: every scheduler run over a successfully built graph terminates
    exactly when no node remains pending, ready, or running: the final status
    map assigns a terminal status (success, failed, or skipped) to every node
    of the graph, no node is still eligible for dispatch, and the complete
    list of attempt-level execution records is returned in completion order
    (every record ends before any later timed record starts); the result is
    a value, so partial success is reported rather than raised. -/
theorem c6_theorem {defs : List WorkUnitDefinition} {pg : Nat} {dag : List DagNode}
    (hb : build defs pg = Except.ok dag) (runner : DagNode → Nat → RunnerOutcome) :
    (∀ nd ∈ dag, terminalStatus ((run runner pg dag).1 nd.name)) ∧
    findReady dag (run runner pg dag).1 = none ∧
    List.Pairwise (fun r1 r2 => ∀ e ∈ r1.ended_at, ∀ s0 ∈ r2.started_at, e < s0)
      (run runner pg dag).2 := by
  obtain ⟨-, hnodup, hclosed, hacyc⟩ := build_ok_elim hb
  have hinv : Inv runner pg dag (schedLoop runner pg dag dag.length initState) :=
    run_inv hnodup
  refine ⟨?_, ?_, hinv.pairwiseOrder⟩
  · intro nd hnd
    have hterm : (run runner pg dag).1 nd.name ≠ NStatus.pending :=
      run_no_pending hnodup hclosed hacyc nd hnd
    cases h : (run runner pg dag).1 nd.name with
    | pending => exact absurd h hterm
    | success => trivial
    | failed => trivial
    | skipped => trivial
  · exact run_findReady_none runner pg dag

/-- Claim C6 witness: a concrete three-node chain run with a succeeding
    runner. -/
theorem c6_witness :
    (∀ nd ∈ activeDag defsW6 1,
      terminalStatus ((run alwaysOkRunner 1 (activeDag defsW6 1)).1 nd.name)) ∧
    findReady (activeDag defsW6 1) (run alwaysOkRunner 1 (activeDag defsW6 1)).1 =
      none ∧
    List.Pairwise (fun r1 r2 => ∀ e ∈ r1.ended_at, ∀ s0 ∈ r2.started_at, e < s0)
      (run alwaysOkRunner 1 (activeDag defsW6 1)).2 :=
  @c6_theorem defsW6 1 (activeDag defsW6 1) rfl alwaysOkRunner

/-- Claim C7: build is deterministic and idempotent; two build calls on the
    same unchanged definition set and process group produce structurally
    identical graphs: the same node-name list and the identical edge list. -/
theorem c7_theorem {defs : List WorkUnitDefinition} {pg : Nat} {g1 g2 : List DagNode}
    (h1 : build defs pg = Except.ok g1) (h2 : build defs pg = Except.ok g2) :
    dagNames g1 = dagNames g2 ∧ edgeList g1 = edgeList g2 := by
  rw [h1] at h2
  have hg : g1 = g2 := Except.ok.inj h2
  rw [hg]
  exact ⟨rfl, rfl⟩

/-- Claim C7 witness: two builds of the same concrete definition set. -/
theorem c7_witness :
    dagNames (activeDag defsW7 1) = dagNames (activeDag defsW7 1) ∧
    edgeList (activeDag defsW7 1) = edgeList (activeDag defsW7 1) :=
  @c7_theorem defsW7 1 (activeDag defsW7 1) (activeDag defsW7 1) rfl rfl

/-- Claim C8: in every run over a successfully built graph, every logged
    record has an error message exactly when its status is not success;
    skip records carry attempt number zero and no timestamps, while records
    of attempted nodes carry a one-based attempt number and both timestamps;
    per node the attempt numbers are exactly one up to the attempt count, in
    strictly increasing order; and the control loop only ever appends to the
    record list, never mutating what was already written. -/
theorem c8_theorem {defs : List WorkUnitDefinition} {pg : Nat} {dag : List DagNode}
    {runner : DagNode → Nat → RunnerOutcome} (hb : build defs pg = Except.ok dag) :
    (∀ r ∈ (run runner pg dag).2,
        (r.error_message.isSome = true ↔ r.status ≠ RStatus.success) ∧
        (r.status = RStatus.skipped →
          r.attempt_number = 0 ∧ r.started_at = none ∧ r.ended_at = none) ∧
        (r.status ≠ RStatus.skipped →
          1 ≤ r.attempt_number ∧ r.started_at.isSome = true ∧
            r.ended_at.isSome = true)) ∧
    (∀ nd ∈ dag, ∃ k,
        (attemptRecordsFor nd.name (run runner pg dag).2).map
          (fun r => r.attempt_number) = List.range' 1 k ∧
        List.Pairwise (fun a b => a < b)
          ((attemptRecordsFor nd.name (run runner pg dag).2).map
            (fun r => r.attempt_number))) ∧
    (∀ (fuel : Nat) (s : SchedState), ∃ t,
        (schedLoop runner pg dag fuel s).records = s.records ++ t) := by
  obtain ⟨-, hnodup, -, -⟩ := build_ok_elim hb
  have hinv : Inv runner pg dag (schedLoop runner pg dag dag.length initState) :=
    run_inv hnodup
  refine ⟨?_, ?_, schedLoop_append runner pg dag⟩
  · intro r hr
    rcases run_record_cases hnodup r hr with ⟨nd, c0, hnd, hrb⟩ | ⟨n, rfl⟩
    · obtain ⟨-, -, h3, h4, s0, e, h5, h6, -, -, -⟩ :=
        ra_mem runner pg nd nd.retry_attempts 1 c0 r hrb
      refine ⟨h4, fun hsk => absurd hsk h3, fun _ => ⟨ra_attempt_pos hrb, ?_, ?_⟩⟩
      · rw [h5]
        rfl
      · rw [h6]
        rfl
    · exact ⟨⟨fun _ heq => RStatus.noConfusion heq, fun _ => rfl⟩,
        fun _ => ⟨rfl, rfl, rfl⟩, fun hns => absurd rfl hns⟩
  · intro nd hnd
    obtain ⟨o1, o2, o3, o4⟩ := hinv.recShape nd hnd
    have hconv : attemptRecordsFor nd.name (run runner pg dag).2 =
        (recordsFor nd.name
          (schedLoop runner pg dag dag.length initState).records).filter
            (fun r => r.attempt_number != 0) := attemptRecordsFor_eq nd.name _
    cases hst : (schedLoop runner pg dag dag.length initState).statuses nd.name with
    | pending =>
      refine ⟨0, ?_, ?_⟩
      · rw [hconv, o1 hst]
        rfl
      · rw [hconv, o1 hst]
        exact List.Pairwise.nil
    | skipped =>
      refine ⟨0, ?_, ?_⟩
      · rw [hconv, o4 hst]
        rfl
      · rw [hconv, o4 hst]
        exact List.Pairwise.nil
    | success =>
      obtain ⟨c0, he, -, -⟩ := o2 hst
      have hfs : ((runAttempts runner pg nd 1 nd.retry_attempts c0).1).filter
          (fun r => r.attempt_number != 0) =
          (runAttempts runner pg nd 1 nd.retry_attempts c0).1 :=
        List.filter_eq_self.mpr (fun r hr => by
          have hpos := ra_attempt_pos hr
          rw [bne_iff_ne]
          omega)
      refine ⟨((runAttempts runner pg nd 1 nd.retry_attempts c0).1).length, ?_, ?_⟩
      · rw [hconv, he, hfs, ra_attempt_numbers]
      · rw [hconv, he, hfs, ra_attempt_numbers]
        exact List.pairwise_lt_range' 1 _
    | failed =>
      obtain ⟨c0, he, -, -⟩ := o3 hst
      have hfs : ((runAttempts runner pg nd 1 nd.retry_attempts c0).1).filter
          (fun r => r.attempt_number != 0) =
          (runAttempts runner pg nd 1 nd.retry_attempts c0).1 :=
        List.filter_eq_self.mpr (fun r hr => by
          have hpos := ra_attempt_pos hr
          rw [bne_iff_ne]
          omega)
      refine ⟨((runAttempts runner pg nd 1 nd.retry_attempts c0).1).length, ?_, ?_⟩
      · rw [hconv, he, hfs, ra_attempt_numbers]
      · rw [hconv, he, hfs, ra_attempt_numbers]
        exact List.pairwise_lt_range' 1 _

/-- Claim C8 witness: a concrete run with an always-failing runner over a
    two-node chain. -/
theorem c8_witness :
    (∀ r ∈ (run alwaysFailRunner 1 (activeDag defsW8 1)).2,
        (r.error_message.isSome = true ↔ r.status ≠ RStatus.success) ∧
        (r.status = RStatus.skipped →
          r.attempt_number = 0 ∧ r.started_at = none ∧ r.ended_at = none) ∧
        (r.status ≠ RStatus.skipped →
          1 ≤ r.attempt_number ∧ r.started_at.isSome = true ∧
            r.ended_at.isSome = true)) ∧
    (∀ nd ∈ activeDag defsW8 1, ∃ k,
        (attemptRecordsFor nd.name (run alwaysFailRunner 1 (activeDag defsW8 1)).2).map
          (fun r => r.attempt_number) = List.range' 1 k ∧
        List.Pairwise (fun a b => a < b)
          ((attemptRecordsFor nd.name
            (run alwaysFailRunner 1 (activeDag defsW8 1)).2).map
              (fun r => r.attempt_number))) ∧
    (∀ (fuel : Nat) (s : SchedState), ∃ t,
        (schedLoop alwaysFailRunner 1 (activeDag defsW8 1) fuel s).records =
          s.records ++ t) :=
  @c8_theorem defsW8 1 (activeDag defsW8 1) alwaysFailRunner rfl

/-- Claim C9: the facade build_dag of LucidUtils returns exactly the result
    of the orchestration manager build_dag applied to the same arguments in
    the same order (control_table_name, process_group, write_method,
    control_storage_container_endpoint); it adds no filtering, validation,
    or transformation of the returned value. -/
theorem c9_theorem {Cfg LoadRes Dg ExecRes LogRes : Type}
    (u : LucidUtils Cfg LoadRes Dg ExecRes LogRes)
    (control_table_name : String) (process_group : Nat)
    (write_method : String) (control_storage_container_endpoint : Option String) :
    (u.build_dag control_table_name process_group write_method
      control_storage_container_endpoint).2 =
      u.orchestration_manager.build_dag control_table_name process_group
        write_method control_storage_container_endpoint := rfl

/-- Claim C10: the facade orchestration operations
    (load_orchestration_config, build_dag, log_orchestration_execution)
    contain no exception handling: whenever the underlying orchestration
    manager reports an error, the very same error is the result of the
    facade call. -/
theorem c10_theorem {Cfg LoadRes Dg ExecRes LogRes : Type}
    (u : LucidUtils Cfg LoadRes Dg ExecRes LogRes)
    (ct1 : String) (cfg : Cfg) (wm1 : String) (ep1 : Option String)
    (ct2 : String) (pgn : Nat) (wm2 : String) (ep2 : Option String)
    (lt : String) (res : ExecRes) (wm3 : String) (ep3 : Option String)
    (e1 e2 e3 : BuildError) :
    (u.orchestration_manager.load_orchestration_config ct1 cfg wm1 ep1 =
        Except.error e1 →
      (u.load_orchestration_config ct1 cfg wm1 ep1).2 = Except.error e1) ∧
    (u.orchestration_manager.build_dag ct2 pgn wm2 ep2 = Except.error e2 →
      (u.build_dag ct2 pgn wm2 ep2).2 = Except.error e2) ∧
    (u.orchestration_manager.log_orchestration_execution lt res wm3 ep3 =
        Except.error e3 →
      (u.log_orchestration_execution lt res wm3 ep3).2 = Except.error e3) :=
  ⟨fun h => h, fun h => h, fun h => h⟩

def exMgr : OrchestrationManager Unit Unit Unit Unit Unit :=
  ⟨fun _ _ _ _ => Except.error (BuildError.configError "cfg"),
   fun _ _ _ _ => Except.error (BuildError.dependencyCycleError ["A"]),
   fun _ _ _ _ => Except.error (BuildError.unknownDependencyError "n" "d")⟩

def exFacade : LucidUtils Unit Unit Unit Unit Unit := ⟨exMgr⟩

/-- Claim C10 witness: a concrete manager raising a distinct error from each
    operation propagates each of them unchanged through the facade. -/
theorem c10_witness :
    (exFacade.load_orchestration_config "t" () "catalog" none).2 =
      Except.error (BuildError.configError "cfg") ∧
    (exFacade.build_dag "t" 1 "catalog" none).2 =
      Except.error (BuildError.dependencyCycleError ["A"]) ∧
    (exFacade.log_orchestration_execution "l" () "catalog" none).2 =
      Except.error (BuildError.unknownDependencyError "n" "d") := by
  obtain ⟨h1, h2, h3⟩ := c10_theorem exFacade "t" () "catalog" none "t" 1 "catalog"
    none "l" () "catalog" none (BuildError.configError "cfg")
    (BuildError.dependencyCycleError ["A"])
    (BuildError.unknownDependencyError "n" "d")
  exact ⟨h1 rfl, h2 rfl, h3 rfl⟩

end Lucid
